import Mathlib

/-!
# Plagiarism-Database: a shallow embedding of `database.c` and `Mergesort.h`

The development follows the source file `src/database.c`:

* `MurmurHash64A`        (lines 945-986)  the 64-bit fingerprint hash,
* `get_next_word`        (lines 883-911)  the tokenizer,
* `concatenate_circle`   (lines 917-935)  the shingle builder,
* the shingling loop     (lines 465-493, repeated verbatim at 273-301, 318-346,
                          510-538, 663-691, 708-736),
* `permute_and_compare`  (lines 804-877)  the min-hash estimator,
* the comparison modes `option_1` (lines 253-369), `option_2` (lines 452-550)
                         and `option_3` (lines 622-755),

and the source file `src/Mergesort.h`: `merge_sort` (lines 6-9), `mergesort_r`
(lines 12-30) and `merge` (lines 33-70).

Conventions.  A `uint64_t` is a natural number below `2 ^ 64`; every operation
that can leave that range (multiplication, left shift) is reduced `% 2 ^ 64`.
A byte (`unsigned char`, a character read by `fgetc`) is a `Fin 256`.
A `for (i = 0; i < n; i++)` loop is a left fold over `List.range n`.
-/

namespace PlagiarismDatabase

/-- One byte of memory (`unsigned char`). -/
abbrev Byte : Type := Fin 256

/-- Number of values of a `uint64_t`. -/
def U64 : Nat := 2 ^ 64

/-! ## `MurmurHash64A` (database.c:945-986) -/

/-- The read `k = *data++` at byte offset `off` on a little-endian machine (the source's
own comment warns that the function is endian-dependent): byte `off` is the
least significant one.  `key[i]` is `key.getD i 0`. -/
def load_u64 (key : List Byte) (off : Nat) : Nat :=
  (key.getD off 0).val
    + (key.getD (off + 1) 0).val * 2 ^ 8
    + (key.getD (off + 2) 0).val * 2 ^ 16
    + (key.getD (off + 3) 0).val * 2 ^ 24
    + (key.getD (off + 4) 0).val * 2 ^ 32
    + (key.getD (off + 5) 0).val * 2 ^ 40
    + (key.getD (off + 6) 0).val * 2 ^ 48
    + (key.getD (off + 7) 0).val * 2 ^ 56

/-- The loop `while (data != end) { ... }` of lines 955-965.  `data` counts
64-bit words from the start of `key`; `n` is the distance `end - data`. -/
def murmur_blocks (key : List Byte) (m r : Nat) : Nat → Nat → Nat → Nat
  | 0, _, h => h
  | n + 1, data, h =>
    let k := load_u64 key (8 * data)
    let k := (k * m) % U64
    let k := k ^^^ (k >>> r)
    let k := (k * m) % U64
    let h := h ^^^ k
    let h := (h * m) % U64
    murmur_blocks key m r n (data + 1) h

/-- The `switch (len & 7)` of lines 969-979.  The cases fall through, so the
statement of `case c` runs exactly when `len & 7 >= c`.  `data2` is the byte
offset of the first byte after the last full block. -/
def murmur_tail (key : List Byte) (m : Nat) (len data2 : Nat) (h : Nat) : Nat :=
  let t := len &&& 7
  let h := if 7 ≤ t then h ^^^ (((key.getD (data2 + 6) 0).val <<< 48) % U64) else h
  let h := if 6 ≤ t then h ^^^ (((key.getD (data2 + 5) 0).val <<< 40) % U64) else h
  let h := if 5 ≤ t then h ^^^ (((key.getD (data2 + 4) 0).val <<< 32) % U64) else h
  let h := if 4 ≤ t then h ^^^ (((key.getD (data2 + 3) 0).val <<< 24) % U64) else h
  let h := if 3 ≤ t then h ^^^ (((key.getD (data2 + 2) 0).val <<< 16) % U64) else h
  let h := if 2 ≤ t then h ^^^ (((key.getD (data2 + 1) 0).val <<< 8) % U64) else h
  if 1 ≤ t then ((h ^^^ (key.getD data2 0).val) * m) % U64 else h

/-- The function `uint64_t MurmurHash64A (const void* key, int len, uint64_t seed)`.
`key` is the memory the pointer designates, `len` the (non-negative) length
argument, `seed` a `uint64_t`. -/
def MurmurHash64A (key : List Byte) (len : Nat) (seed : Nat) : Nat :=
  let m := 0xc6a4a7935bd1e995
  let r := 47
  let h := seed ^^^ ((len * m) % U64)
  let h := murmur_blocks key m r (len / 8) 0 h
  let h := murmur_tail key m len (8 * (len / 8)) h
  let h := h ^^^ (h >>> r)
  let h := (h * m) % U64
  let h := h ^^^ (h >>> r)
  h

/-! ### The reference computation of the specification (section 4.3) -/

/-- Value of a byte string read as a little-endian number. -/
def le_value : List Byte → Nat
  | [] => 0
  | b :: bs => b.val + 256 * le_value bs

/-- Specification: a block value `k` is mixed as `k = k*m`, `k = k XOR (k >> r)`,
`k = k*m`, then `h = (h XOR k) * m`, everything modulo `2 ^ 64`. -/
def spec_mix (m r : Nat) (h k : Nat) : Nat :=
  let k := (k * m) % 2 ^ 64
  let k := (k ^^^ (k >>> r)) % 2 ^ 64
  let k := (k * m) % 2 ^ 64
  ((h ^^^ k) * m) % 2 ^ 64

/-- Specification: consume the full 8-byte blocks in order; what is left (fewer
than 8 bytes) is returned with the running hash. -/
def spec_blocks (m r : Nat) : List Byte → Nat → Nat × List Byte
  | b0 :: b1 :: b2 :: b3 :: b4 :: b5 :: b6 :: b7 :: rest, h =>
    spec_blocks m r rest (spec_mix m r h (le_value [b0, b1, b2, b3, b4, b5, b6, b7]))
  | tail, h => (h, tail)

/-- Specification: each trailing byte is XORed into `h`, shifted left by 8 times
its position `pos`, `pos + 1`, ... -/
def spec_tail : List Byte → Nat → Nat → Nat
  | [], _, h => h
  | b :: bs, pos, h => spec_tail bs (pos + 1) ((h ^^^ ((b.val <<< (8 * pos)) % 2 ^ 64)) % 2 ^ 64)

/-- Specification of the hash (section 4.3), with `m = 0xc6a4a7935bd1e995` and
`r = 47`, all arithmetic modulo `2 ^ 64`. -/
def spec_hash64 (key : List Byte) (seed : Nat) : Nat :=
  let m := 0xc6a4a7935bd1e995
  let r := 47
  let h := (seed ^^^ ((key.length * m) % 2 ^ 64)) % 2 ^ 64
  let (h, tail) := spec_blocks m r key h
  let h := spec_tail tail 0 h
  let h := if 0 < tail.length then (h * m) % 2 ^ 64 else h
  let h := (h ^^^ (h >>> r)) % 2 ^ 64
  let h := (h * m) % 2 ^ 64
  (h ^^^ (h >>> r)) % 2 ^ 64

/-! ## C strings -/

/-- The value of `strlen(p)`: the number of bytes before the first NUL in the memory `mem`
that starts at `p` (the end of the modelled memory counts as a NUL). -/
def strlen (mem : List Byte) : Nat :=
  (mem.takeWhile (fun c => c ≠ 0)).length

/-- The `n` bytes that `strncpy(dst, src, n)` writes to `dst`: the characters of
`src` up to its first NUL, at most `n` of them, padded with NULs to `n` bytes. -/
def strncpy (src : List Byte) (n : Nat) : List Byte :=
  let s := (src.takeWhile (fun c => c ≠ 0)).take n
  s ++ List.replicate (n - s.length) 0

/-! ## `get_next_word` (database.c:883-911) -/

/-- The test `isalpha(c)` in the "C" locale (the program never calls `setlocale`). -/
def isalpha (c : Byte) : Bool :=
  (65 ≤ c.val && c.val ≤ 90) || (97 ≤ c.val && c.val ≤ 122)

/-- The test `isdigit(c)`. -/
def isdigit (c : Byte) : Bool :=
  48 ≤ c.val && c.val ≤ 57

/-- The `for (int c = fgetc(file); c != EOF; c = fgetc(file))` loop of lines
888-907.  `file` is the unread rest of the stream and `word` holds the `index`
characters stored so far (`index` is `word.length`).  The result is the returned
string (`none` for `NULL`) together with the rest of the stream.  The buffer
of `BUFSIZ * BUFSIZ` bytes is assumed large enough for the word. -/
def get_next_word_loop : List Byte → List Byte → Option (List Byte) × List Byte
  | [], _ => (none, [])
  | c :: file, word =>
    if isalpha c || (c = 39 && decide (0 < word.length)) || isdigit c then
      get_next_word_loop file (word ++ [c])
    else if 0 < word.length then
      (some word, file)
    else
      get_next_word_loop file word

/-- The function `char* get_next_word(FILE* file)`: `index = 0`, then the loop. -/
def get_next_word (file : List Byte) : Option (List Byte) × List Byte :=
  get_next_word_loop file []

/-! ## `concatenate_circle` (database.c:917-935) and the shingling loop -/

/-- The function `char* concatenate_circle(int head, char** circle, int* circle_lens)`.
The arrays are memory views indexed by slot.  The loop of lines 928-933 writes
`circle_lens[trav]` bytes at `str + str_index`; since `str_index` is the number
of bytes written so far, the buffer is built by appending.  The result is the
`len` bytes of `str` (no terminating NUL is written). -/
def concatenate_circle (SHINGLE_LENGTH : Nat) (head : Nat) (circle : Nat → List Byte)
    (circle_lens : Nat → Nat) : List Byte :=
  ((List.range SHINGLE_LENGTH).foldl
    (fun (acc : List Byte × Nat) _ =>
      (acc.1 ++ strncpy (circle acc.2) (circle_lens acc.2), (acc.2 + 1) % SHINGLE_LENGTH))
    ([], head)).1

/-- The variables of one shingling loop (lines 452-462). -/
structure Shingler where
  circle : Nat → List Byte
  circle_lens : Nat → Nat
  circle_index : Nat
  shingles : Nat → Nat
  shingles_sz : Nat
  shingles_count : Nat
  stored_shingles : Nat

/-- State before the first word: `circle` and `circle_lens` come from `malloc`
(indeterminate contents `circle0`, `lens0`), so does the fingerprint array
(`mem0`), whose size is `sz_unit = BUFSIZ * sizeof(uint64_t)` bytes. -/
def Shingler.start (BUFSIZ : Nat) (circle0 : Nat → List Byte) (lens0 : Nat → Nat)
    (mem0 : Nat → Nat) : Shingler :=
  { circle := circle0, circle_lens := lens0, circle_index := 0, shingles := mem0,
    shingles_sz := BUFSIZ * 8, shingles_count := 0, stored_shingles := 0 }

/-- Lines 469-473: the word is copied into slot `circle_index`, the index
advances modulo `SHINGLE_LENGTH` and the word counter is incremented. -/
def Shingler.add_word (SHINGLE_LENGTH : Nat) (st : Shingler) (word : List Byte) : Shingler :=
  let len := strlen word
  { st with
    circle_lens := Function.update st.circle_lens st.circle_index len
    circle := Function.update st.circle st.circle_index (strncpy word len)
    circle_index := (st.circle_index + 1) % SHINGLE_LENGTH
    shingles_count := st.shingles_count + 1 }

/-- Lines 476-479: the string `str` built when the counter has reached
`SHINGLE_LENGTH`, in the state after `add_word`. -/
def Shingler.shingle (SHINGLE_LENGTH : Nat) (st : Shingler) : Option (List Byte) :=
  if SHINGLE_LENGTH ≤ st.shingles_count then
    some (concatenate_circle SHINGLE_LENGTH st.circle_index st.circle st.circle_lens)
  else none

/-- Lines 480-488 for a built string `str`: it is hashed over `strlen(str)`
bytes.  `str` carries no terminator, so `strlen` runs on into the bytes that
follow the allocation, `heap`.  The array grows by `sz_unit` bytes when the
word counter is a positive multiple of `BUFSIZ`; the hash is stored at
`stored_shingles`, which is then incremented. -/
def Shingler.store (BUFSIZ seed : Nat) (heap : List Byte) (st : Shingler)
    (str : List Byte) : Shingler :=
  let mem := str ++ heap
  let hash := MurmurHash64A mem (strlen mem) seed
  let sz := if st.shingles_count % BUFSIZ = 0 ∧ st.shingles_count ≠ 0
    then st.shingles_sz + BUFSIZ * 8 else st.shingles_sz
  { st with
    shingles_sz := sz
    shingles := Function.update st.shingles st.stored_shingles hash
    stored_shingles := st.stored_shingles + 1 }

/-- One iteration of the `while (word != NULL)` loop, lines 468-489.  `heap n`
is the memory that follows the string allocated while the word counter is `n`. -/
def Shingler.step (SHINGLE_LENGTH BUFSIZ seed : Nat) (heap : Nat → List Byte)
    (st : Shingler) (word : List Byte) : Shingler :=
  let st := st.add_word SHINGLE_LENGTH word
  match st.shingle SHINGLE_LENGTH with
  | some str => st.store BUFSIZ seed (heap st.shingles_count) str
  | none => st

/-- The whole loop over the words that `get_next_word` returns, in order. -/
def shingle_loop (SHINGLE_LENGTH BUFSIZ seed : Nat) (heap : Nat → List Byte)
    (st : Shingler) (words : List (List Byte)) : Shingler :=
  words.foldl (Shingler.step SHINGLE_LENGTH BUFSIZ seed heap) st

/-- The strings `str` built by the loop, in the order in which they are built. -/
def emitted_shingles (SHINGLE_LENGTH BUFSIZ seed : Nat) (heap : Nat → List Byte) :
    Shingler → List (List Byte) → List (List Byte)
  | _, [] => []
  | st, word :: words =>
    let emitted := ((st.add_word SHINGLE_LENGTH word).shingle SHINGLE_LENGTH).toList
    emitted ++ emitted_shingles SHINGLE_LENGTH BUFSIZ seed heap
      (st.step SHINGLE_LENGTH BUFSIZ seed heap word) words

/-- The source's `#define SHINGLE_LENGTH 2`. -/
def SHINGLE_LENGTH : Nat := 2

/-- The source's `#define PERMUTATIONS 4000`. -/
def PERMUTATIONS : Nat := 4000

/-- Bytes of a string literal. -/
def bytes (s : String) : List Byte :=
  s.toList.map (fun c => Fin.ofNat c.toNat)

/-! ## `permute_and_compare` (database.c:804-877) -/

/-- The pseudo-random generator of the C library, which is not part of the
repository.  `srand(seed)` replaces the process-wide generator state by one that
depends on `seed` only (C standard, 7.22.2.2: the same seed always starts the
same sequence); `rand()` returns a value in `[0, RAND_MAX]` and advances the
state. -/
structure Prng where
  State : Type
  srand : Nat → State
  rand : State → Nat × State

/-- The inner loop `for (j = 0; j < PERMUTATIONS; j++) p_set[i][j] = rand();`
of lines 832-833 and 839-840: the row written and the generator state left. -/
def permute_row (G : Prng) (PERMUTATIONS : Nat) (rng : G.State) : List Nat × G.State :=
  (List.range PERMUTATIONS).foldl
    (fun (acc : List Nat × G.State) _ => (acc.1 ++ [(G.rand acc.2).1], (G.rand acc.2).2))
    ([], rng)

/-- The loops of lines 828-834 and 835-841: for each `i < set_len` the generator
is re-seeded with `set[i]`, converted to `unsigned int` (32 bits), and row `i` is
drawn.  The rows are filled in index order, so the matrix is built by appending. -/
def permute_set (G : Prng) (PERMUTATIONS : Nat) (set_len : Nat) (set : Nat → Nat)
    (rng : G.State) : List (List Nat) × G.State :=
  (List.range set_len).foldl
    (fun (acc : List (List Nat) × G.State) i =>
      let row := permute_row G PERMUTATIONS (G.srand (set i % 2 ^ 32))
      (acc.1 ++ [row.1], row.2))
    ([], rng)

/-- The loop of line 851-852 (and 855-856) for column `i`:
`set_min = (j == 0) ? p_set[j][i] : ((set_min < p_set[j][i]) ? set_min : p_set[j][i])`.
`set_min` is the value the variable holds when the loop starts. -/
def column_min (p_set : List (List Nat)) (set_len : Nat) (i : Nat) (set_min : Nat) : Nat :=
  (List.range set_len).foldl
    (fun set_min j =>
      if j = 0 then (p_set.getD j []).getD i 0
      else if set_min < (p_set.getD j []).getD i 0 then set_min
      else (p_set.getD j []).getD i 0)
    set_min

/-- The local variables of the resemblance loop (lines 844-847). -/
structure Resemblance where
  matching_mins : Nat
  calculated_mins : Nat
  set_1_min : Nat
  set_2_min : Nat

/-- One iteration of the loop of lines 848-862, for column `i`. -/
def resemblance_step (p_set_1 p_set_2 : List (List Nat)) (set_1_len set_2_len : Nat)
    (st : Resemblance) (i : Nat) : Resemblance :=
  let set_1_min := column_min p_set_1 set_1_len i st.set_1_min
  let set_2_min := column_min p_set_2 set_2_len i st.set_2_min
  { matching_mins := if set_1_min = set_2_min then st.matching_mins + 1 else st.matching_mins
    calculated_mins := st.calculated_mins + 1
    set_1_min := set_1_min
    set_2_min := set_2_min }

/-- The function `float permute_and_compare(char* file_1, int set_1_len, uint64_t* set_1,
char* file_2, int set_2_len, uint64_t* set_2)`.

* `set_1`, `set_2` are the memory the pointers designate, indexed by position;
  only positions below the length arguments are read.
* `rng` is the state of the process-wide generator when the call starts; the
  state when it returns is the second component of the result.
* `u1`, `u2` are the indeterminate values of the uninitialised locals
  `set_1_min`, `set_2_min` (line 846-847).
* `file_1`, `file_2` are only compared with `NULL` in assertions and are omitted.
* The result `(float)matching_mins / (float)PERMUTATIONS` is the exact quotient,
  a rational; the `float` returned by the C code is that quotient rounded. -/
def permute_and_compare (G : Prng) (PERMUTATIONS : Nat) (rng : G.State) (u1 u2 : Nat)
    (set_1_len : Nat) (set_1 : Nat → Nat) (set_2_len : Nat) (set_2 : Nat → Nat) :
    ℚ × G.State :=
  let p1 := permute_set G PERMUTATIONS set_1_len set_1 rng
  let p2 := permute_set G PERMUTATIONS set_2_len set_2 p1.2
  let st := (List.range PERMUTATIONS).foldl
    (resemblance_step p1.1 p2.1 set_1_len set_2_len)
    { matching_mins := 0, calculated_mins := 0, set_1_min := u1, set_2_min := u2 }
  ((st.matching_mins : ℚ) / (PERMUTATIONS : ℚ), p2.2)

/-- The `j`-th value of the permutation row of fingerprint `v`: entry `j` of the
row that lines 831-833 draw after `srand(v)`. -/
def row_value (G : Prng) (PERMUTATIONS : Nat) (v : Nat) (j : Nat) : Nat :=
  ((permute_row G PERMUTATIONS (G.srand (v % 2 ^ 32))).1).getD j 0

/-- An example generator (the sample `rand`/`srand` of the C standard), used to
instantiate the theorems at concrete inputs. -/
def sample_prng : Prng :=
  { State := Nat
    srand := fun seed => seed
    rand := fun next =>
      let next := (next * 1103515245 + 12345) % 2 ^ 32
      ((next / 65536) % 32768, next) }

/-- The memory view of an array holding the elements of `l`. -/
def array_of (l : List Nat) : Nat → Nat :=
  fun i => l.getD i 0

/-- The permutation matrix of a fingerprint sequence as the specification
describes it (section 3): one row per fingerprint, row `i` being the row drawn
after seeding the generator with fingerprint `i`. -/
def permutation_matrix (G : Prng) (PERMUTATIONS : Nat) (set_len : Nat) (set : Nat → Nat) :
    List (List Nat) :=
  (List.range set_len).map
    (fun i => (permute_row G PERMUTATIONS (G.srand (set i % 2 ^ 32))).1)

/-- Number of columns below `PERMUTATIONS` whose two column minima, computed by
`column_min` on the two permutation matrices, coincide. -/
def matching_columns (G : Prng) (PERMUTATIONS : Nat) (set_1_len : Nat) (set_1 : Nat → Nat)
    (set_2_len : Nat) (set_2 : Nat → Nat) : Nat :=
  ((Finset.range PERMUTATIONS).filter (fun i =>
    column_min (permutation_matrix G PERMUTATIONS set_1_len set_1) set_1_len i 0
      = column_min (permutation_matrix G PERMUTATIONS set_2_len set_2) set_2_len i 0)).card

/-- Invariant of the shingling loop after the words `seen` have been added: the
counter is their number, the write position is that number modulo
`SHINGLE_LENGTH`, and each of the last `SHINGLE_LENGTH` words sits, with its
length, in the slot given by its index modulo `SHINGLE_LENGTH`. -/
def Shingler.Holds (SHINGLE_LENGTH : Nat) (st : Shingler) (seen : List (List Byte)) : Prop :=
  st.shingles_count = seen.length
    ∧ st.circle_index = seen.length % SHINGLE_LENGTH
    ∧ ∀ j, j < seen.length → seen.length ≤ j + SHINGLE_LENGTH →
        st.circle (j % SHINGLE_LENGTH) = seen.getD j []
          ∧ st.circle_lens (j % SHINGLE_LENGTH) = (seen.getD j []).length

/-- The concatenation of the `SHINGLE_LENGTH` consecutive tokens
`t_k, ..., t_(k + SHINGLE_LENGTH - 1)` of `tokens`. -/
def window (SHINGLE_LENGTH : Nat) (tokens : List (List Byte)) (k : Nat) : List Byte :=
  ((tokens.drop k).take SHINGLE_LENGTH).flatten

/-- The `j`-th successive output of `rand()` (counting from 0) when the
generator is in state `s`. -/
def nth_rand (G : Prng) (s : G.State) (j : Nat) : Nat :=
  (G.rand ((fun t => (G.rand t).2)^[j] s)).1

/-! ## The tokenization of a stream -/

/-- The words returned by the calls `word = get_next_word(fp)` of the loops
`while (word != NULL)`, in order, up to the first `NULL`; at most `fuel` calls
return a word. -/
def words_fuel : Nat → List Byte → List (List Byte)
  | 0, _ => []
  | fuel + 1, file =>
    match get_next_word file with
    | (some word, rest) => word :: words_fuel fuel rest
    | (none, _) => []

/-- The tokenization of a stream read from its start.  Every call that returns
a word consumes at least one character, so `file.length + 1` calls reach the
`NULL`. -/
def words (file : List Byte) : List (List Byte) :=
  words_fuel (file.length + 1) file

/-- A delimiter: a character that is neither alphabetic, nor a digit, nor an
apostrophe. -/
def is_delimiter (c : Byte) : Bool :=
  !(isalpha c || isdigit c || c = 39)

/-- Reference tokenization of the specification: split the stream at every
delimiter, strip the leading apostrophes of each piece, drop the pieces that
are then empty. -/
def spec_tokens (file : List Byte) : List (List Byte) :=
  ((file.splitOnP is_delimiter).map (List.dropWhile (fun c => c = 39))).filter
    (fun piece => !piece.isEmpty)

/-! ## The comparison modes (`option_1`, `option_2`, `option_3`) -/

/-- The value of `matching_mins` when the loop of lines 848-862 ends; the result of
`permute_and_compare` is this number divided by `PERMUTATIONS`. -/
def final_matching_mins (G : Prng) (PERMUTATIONS : Nat) (rng : G.State) (u1 u2 : Nat)
    (set_1_len : Nat) (set_1 : Nat → Nat) (set_2_len : Nat) (set_2 : Nat → Nat) : Nat :=
  let p1 := permute_set G PERMUTATIONS set_1_len set_1 rng
  let p2 := permute_set G PERMUTATIONS set_2_len set_2 p1.2
  ((List.range PERMUTATIONS).foldl
    (resemblance_step p1.1 p2.1 set_1_len set_2_len)
    { matching_mins := 0, calculated_mins := 0, set_1_min := u1, set_2_min := u2 }).matching_mins

/-- The indeterminate memory that one comparison meets: the contents of the
freshly allocated `circle`, `circle_lens`, `f1_shingles` and `f2_shingles`, the
bytes that follow each string `str` built for file 1 and for file 2 (indexed by
the word counter), and the start values of the locals `set_1_min`, `set_2_min`. -/
structure Memory where
  circle0 : Nat → List Byte
  lens0 : Nat → Nat
  f1_mem : Nat → Nat
  f2_mem : Nat → Nat
  heap_1 : Nat → List Byte
  heap_2 : Nat → List Byte
  u1 : Nat
  u2 : Nat

/-- What one comparison leaves: the loop variables of the two shingling loops,
the two length arguments handed to `permute_and_compare`, its result and the
generator state after it. -/
structure Comparison (G : Prng) where
  f1 : Shingler
  f2 : Shingler
  set_1_len : Nat
  set_2_len : Nat
  resemblance : ℚ
  rng : G.State

/-- The statements of lines 452-550, which lines 260-358 (`option_1`) and
650-748 (`option_3`) repeat verbatim: the shingling loop over file 1, the reset
of the circle (lengths zeroed, index zeroed, the freed strings left in place),
the shingling loop over file 2 on a fresh fingerprint array, and the call
`permute_and_compare(file_a, f1_shingles_count, f1_shingles,
file_b, f2_shingles_count, f2_shingles)`.  `seed` is the value of the global
variable `seed`, which these statements only read. -/
def compare_files (G : Prng) (PERMUTATIONS SHINGLE_LENGTH BUFSIZ : Nat) (seed : Nat)
    (rng : G.State) (mem : Memory) (file_1 file_2 : List Byte) : Comparison G :=
  let f1 := shingle_loop SHINGLE_LENGTH BUFSIZ seed mem.heap_1
    (Shingler.start BUFSIZ mem.circle0 mem.lens0 mem.f1_mem) (words file_1)
  let f2 := shingle_loop SHINGLE_LENGTH BUFSIZ seed mem.heap_2
    (Shingler.start BUFSIZ f1.circle
      (fun i => if i < SHINGLE_LENGTH then 0 else f1.circle_lens i) mem.f2_mem)
    (words file_2)
  let r := permute_and_compare G PERMUTATIONS rng mem.u1 mem.u2
    f1.shingles_count f1.shingles f2.shingles_count f2.shingles
  { f1 := f1, f2 := f2, set_1_len := f1.shingles_count, set_2_len := f2.shingles_count,
    resemblance := r.1, rng := r.2 }

/-- The comparison of `option_2` (lines 452-550), under the current value of the
global `seed`; the dialogue and the report are omitted. -/
def option_2 (G : Prng) (PERMUTATIONS SHINGLE_LENGTH BUFSIZ : Nat) (seed : Nat)
    (rng : G.State) (mem : Memory) (file_1 file_2 : List Byte) : Comparison G :=
  compare_files G PERMUTATIONS SHINGLE_LENGTH BUFSIZ seed rng mem file_1 file_2

/-- One iteration of the loop of `option_1` (lines 253-369): `seed = rand();`
and then the comparison; both files are read from their start (`fseek`).  The
result is the new value of the global `seed` and the comparison. -/
def option_1_run (G : Prng) (PERMUTATIONS SHINGLE_LENGTH BUFSIZ : Nat) (rng : G.State)
    (mem : Memory) (file_1 file_2 : List Byte) : Nat × Comparison G :=
  ((G.rand rng).1,
    compare_files G PERMUTATIONS SHINGLE_LENGTH BUFSIZ (G.rand rng).1 (G.rand rng).2 mem
      file_1 file_2)

/-- The loop `for (int a = 0; a < RUNS; a++)` of `option_1`: the runs in order,
each with the seed it drew; `mems a` is the memory run `a` meets. -/
def option_1 (G : Prng) (PERMUTATIONS SHINGLE_LENGTH BUFSIZ RUNS : Nat) (rng : G.State)
    (mems : Nat → Memory) (file_1 file_2 : List Byte) : List (Nat × Comparison G) × G.State :=
  (List.range RUNS).foldl
    (fun (acc : List (Nat × Comparison G) × G.State) a =>
      let run := option_1_run G PERMUTATIONS SHINGLE_LENGTH BUFSIZ acc.2 (mems a) file_1 file_2
      (acc.1 ++ [run], run.2.rng))
    ([], rng)

/-- The first `n` iterations of the loop `for (int i = 0; i < num_files; i++)`
of `option_3` (lines 622-755).  `files` lists the names and the contents of the
collection, `file_a` is the name entered and `file_1` its content, read from
its start for every pairing.  A file of the same name is skipped (`none`);
`mems i` is the memory pairing `i` meets.  The global `seed` is not assigned. -/
def option_3_loop (G : Prng) (PERMUTATIONS SHINGLE_LENGTH BUFSIZ : Nat) (seed : Nat)
    (rng : G.State) (mems : Nat → Memory) (file_a file_1 : List Byte)
    (files : List (List Byte × List Byte)) (n : Nat) :
    List (Option (Comparison G)) × G.State :=
  (List.range n).foldl
    (fun (acc : List (Option (Comparison G)) × G.State) i =>
      if file_a = (files.getD i ([], [])).1 then (acc.1 ++ [none], acc.2)
      else
        let c := compare_files G PERMUTATIONS SHINGLE_LENGTH BUFSIZ seed acc.2 (mems i)
          file_1 (files.getD i ([], [])).2
        (acc.1 ++ [some c], c.rng))
    ([], rng)

/-- The pairings of `option_3`: the loop over all `num_files` files. -/
def option_3 (G : Prng) (PERMUTATIONS SHINGLE_LENGTH BUFSIZ : Nat) (seed : Nat)
    (rng : G.State) (mems : Nat → Memory) (file_a file_1 : List Byte)
    (files : List (List Byte × List Byte)) : List (Option (Comparison G)) × G.State :=
  option_3_loop G PERMUTATIONS SHINGLE_LENGTH BUFSIZ seed rng mems file_a file_1 files
    files.length

/-- A memory whose indeterminate parts are all zero or empty, except that the
unwritten fingerprint arrays hold `g1` and `g2`. -/
def sample_memory (g1 g2 : Nat) : Memory :=
  { circle0 := fun _ => [], lens0 := fun _ => 0, f1_mem := fun _ => g1, f2_mem := fun _ => g2,
    heap_1 := fun _ => [], heap_2 := fun _ => [], u1 := 0, u2 := 0 }

/-- Every fingerprint stored for the two documents of the comparison `c` is the
hash, under the seed value `s`, of the memory that starts at the corresponding
shingle (the shingle's bytes followed by the bytes that follow its allocation),
over `strlen` bytes. -/
def Comparison.hashed_with {G : Prng} (SHINGLE_LENGTH : Nat) (c : Comparison G) (mem : Memory)
    (file_1 file_2 : List Byte) (s : Nat) : Prop :=
  (∀ k, k < (words file_1).length + 1 - SHINGLE_LENGTH →
      c.f1.shingles k
        = MurmurHash64A
            (window SHINGLE_LENGTH (words file_1) k ++ mem.heap_1 (SHINGLE_LENGTH + k))
            (strlen (window SHINGLE_LENGTH (words file_1) k ++ mem.heap_1 (SHINGLE_LENGTH + k)))
            s)
    ∧ ∀ k, k < (words file_2).length + 1 - SHINGLE_LENGTH →
      c.f2.shingles k
        = MurmurHash64A
            (window SHINGLE_LENGTH (words file_2) k ++ mem.heap_2 (SHINGLE_LENGTH + k))
            (strlen (window SHINGLE_LENGTH (words file_2) k ++ mem.heap_2 (SHINGLE_LENGTH + k)))
            s
/-- The final mix of `MurmurHash64A` (lines 981-983):
`h ^= h >> r; h *= m; h ^= h >> r;`. -/
def murmur_final (m r : Nat) (h : Nat) : Nat :=
  let h := h ^^^ (h >>> r)
  let h := (h * m) % U64
  h ^^^ (h >>> r)

/-! ## `Mergesort.h` -/

theorem getD_drop_add (key : List Byte) (off i : Nat) :
    (key.drop off).getD i 0 = key.getD (off + i) 0 := by
  simp [List.getD_eq_getElem?_getD, List.getElem?_drop]

theorem eight_conses (l : List Byte) (h : 8 ≤ l.length) :
    l = l.getD 0 0 :: l.getD 1 0 :: l.getD 2 0 :: l.getD 3 0 :: l.getD 4 0 :: l.getD 5 0
          :: l.getD 6 0 :: l.getD 7 0 :: l.drop 8 := by
  rcases l with _ | ⟨b0, _ | ⟨b1, _ | ⟨b2, _ | ⟨b3, _ | ⟨b4, _ | ⟨b5, _ | ⟨b6, _ | ⟨b7, l⟩⟩⟩⟩⟩⟩⟩⟩ <;>
    simp at h ⊢

theorem le_value_eight (b0 b1 b2 b3 b4 b5 b6 b7 : Byte) :
    le_value [b0, b1, b2, b3, b4, b5, b6, b7]
      = b0.val + b1.val * 2 ^ 8 + b2.val * 2 ^ 16 + b3.val * 2 ^ 24 + b4.val * 2 ^ 32
        + b5.val * 2 ^ 40 + b6.val * 2 ^ 48 + b7.val * 2 ^ 56 := by
  simp only [le_value]
  ring

theorem xor_shift_lt (k r : Nat) (hk : k < 2 ^ 64) : k ^^^ (k >>> r) < 2 ^ 64 := by
  apply Nat.xor_lt_two_pow hk
  rw [Nat.shiftRight_eq_div_pow]
  exact lt_of_le_of_lt (Nat.div_le_self _ _) hk

theorem spec_blocks_short (m r : Nat) (l : List Byte) (h : Nat) (hl : l.length < 8) :
    spec_blocks m r l h = (h, l) := by
  rcases l with _ | ⟨b0, _ | ⟨b1, _ | ⟨b2, _ | ⟨b3, _ | ⟨b4, _ | ⟨b5, _ | ⟨b6, _ | ⟨b7, l⟩⟩⟩⟩⟩⟩⟩⟩ <;>
    first
      | rfl
      | (simp at hl; omega)

theorem spec_mix_lt (m r h k : Nat) : spec_mix m r h k < 2 ^ 64 := by
  simp only [spec_mix]
  exact Nat.mod_lt _ (by norm_num)

theorem murmur_blocks_lt (key : List Byte) (m r : Nat) :
    ∀ (n data h : Nat), h < 2 ^ 64 → murmur_blocks key m r n data h < 2 ^ 64 := by
  intro n
  induction n with
  | zero => intro data h hh; simpa [murmur_blocks] using hh
  | succ n ih =>
    intro data h _
    simp only [murmur_blocks]
    apply ih
    exact Nat.mod_lt _ (by norm_num [U64])

theorem blocks_refine (key : List Byte) (m r : Nat) :
    ∀ (n data h : Nat), 8 * (data + n) ≤ key.length → h < 2 ^ 64 →
      spec_blocks m r (key.drop (8 * data)) h
        = spec_blocks m r (key.drop (8 * (data + n))) (murmur_blocks key m r n data h) := by
  intro n
  induction n with
  | zero => intro data h _ _; simp [murmur_blocks]
  | succ n ih =>
    intro data h hlen hh
    have h8 : 8 ≤ (key.drop (8 * data)).length := by
      rw [List.length_drop]; omega
    have hk : (load_u64 key (8 * data) * m) % U64 < 2 ^ 64 := Nat.mod_lt _ (by norm_num [U64])
    rw [eight_conses _ h8, spec_blocks, le_value_eight]
    simp only [getD_drop_add, List.drop_drop]
    have e : 8 * data + 8 = 8 * (data + 1) := by ring
    have e' : data + (n + 1) = (data + 1) + n := by ring
    rw [e, e', ih (data + 1) _ (by rw [← e']; exact hlen) (spec_mix_lt m r _ _)]
    simp only [murmur_blocks, spec_mix, load_u64, U64, Nat.add_zero] at hk ⊢
    rw [Nat.mod_eq_of_lt (xor_shift_lt _ r hk)]

theorem U64_eq : (2 : Nat) ^ 64 = U64 := rfl

theorem xor_mod_U64 (a b : Nat) : (a ^^^ b) % U64 = a % U64 ^^^ b % U64 := by
  apply Nat.eq_of_testBit_eq
  intro i
  simp only [← U64_eq, Nat.testBit_mod_two_pow, Nat.testBit_xor]
  by_cases hi : i < 64 <;> simp [hi]

theorem byte_mod_U64 (b : Byte) : b.val % U64 = b.val :=
  Nat.mod_eq_of_lt (lt_trans b.isLt (by norm_num [U64]))

theorem tail_refine (key : List Byte) (m len data2 h : Nat) (tail : List Byte)
    (hh : h < U64) (ht : len &&& 7 = tail.length) (hl : tail.length < 8)
    (hget : ∀ i, key.getD (data2 + i) 0 = tail.getD i 0) :
    murmur_tail key m len data2 h
      = if 0 < tail.length then (spec_tail tail 0 h * m) % U64 else spec_tail tail 0 h := by
  have h0 := hget 0
  rw [Nat.add_zero] at h0
  have hm : h % U64 = h := Nat.mod_eq_of_lt hh
  rcases tail with _ | ⟨b0, _ | ⟨b1, _ | ⟨b2, _ | ⟨b3, _ | ⟨b4, _ | ⟨b5, _ | ⟨b6, _ | ⟨b7, l⟩⟩⟩⟩⟩⟩⟩⟩
  case cons.cons.cons.cons.cons.cons.cons.cons => simp at hl; omega
  all_goals
    simp only [murmur_tail, spec_tail, ht, hget, h0, U64_eq]
    simp [xor_mod_U64, hm, byte_mod_U64]
  all_goals
    refine congrArg (fun x => x * m % U64) ?_
    try generalize b1.val <<< 8 % U64 = s1
    try generalize b2.val <<< 16 % U64 = s2
    try generalize b3.val <<< 24 % U64 = s3
    try generalize b4.val <<< 32 % U64 = s4
    try generalize b5.val <<< 40 % U64 = s5
    try generalize b6.val <<< 48 % U64 = s6
    generalize b0.val = s0
    ac_rfl

theorem murmur_tail_lt (key : List Byte) (m len data2 h : Nat) (hh : h < 2 ^ 64) :
    murmur_tail key m len data2 h < 2 ^ 64 := by
  unfold murmur_tail
  dsimp only
  split
  · exact Nat.mod_lt _ (by norm_num [U64])
  · have x : ∀ (c : Prop) [Decidable c] (a b : Nat), a < 2 ^ 64 →
        (if c then a ^^^ (b % U64) else a) < 2 ^ 64 := by
      intro c _ a b ha
      split
      · exact Nat.xor_lt_two_pow ha (Nat.mod_lt _ (by norm_num [U64]))
      · exact ha
    exact x _ _ _ (x _ _ _ (x _ _ _ (x _ _ _ (x _ _ _ (x _ _ _ hh)))))

/-- C1. For every byte sequence `key` and every 64-bit `seed`,
`MurmurHash64A(key, len, seed)` with `len` the length of `key` equals the
reference computation of the specification: `h = seed XOR (len * m)`, the full
8-byte little-endian blocks mixed in order, the `len mod 8` trailing bytes XORed
in at 8 times their position followed by one multiplication when there is at
least one, and the final avalanche, all modulo `2 ^ 64`. -/
theorem MurmurHash64A_eq_spec (key : List Byte) (seed : Nat) (hseed : seed < 2 ^ 64) :
    MurmurHash64A key key.length seed = spec_hash64 key seed := by
  have hW : (0 : Nat) < 2 ^ 64 := by norm_num
  have h0 : seed ^^^ ((key.length * 0xc6a4a7935bd1e995) % U64) < 2 ^ 64 :=
    Nat.xor_lt_two_pow hseed (Nat.mod_lt _ hW)
  have hb := murmur_blocks_lt key 0xc6a4a7935bd1e995 47 (key.length / 8) 0 _ h0
  have hlen : (key.drop (8 * (key.length / 8))).length < 8 := by
    rw [List.length_drop]; omega
  have hB := blocks_refine key 0xc6a4a7935bd1e995 47 (key.length / 8) 0 _ (by omega) h0
  rw [Nat.mul_zero, List.drop_zero, Nat.zero_add, spec_blocks_short _ _ _ _ hlen] at hB
  have hT := tail_refine key 0xc6a4a7935bd1e995 key.length (8 * (key.length / 8)) _
    (key.drop (8 * (key.length / 8))) hb
    (by rw [List.length_drop, show (7 : Nat) = 2 ^ 3 - 1 by norm_num,
          Nat.and_pow_two_sub_one_eq_mod]; omega)
    hlen (fun i => (getD_drop_add key _ i).symm)
  have ht := murmur_tail_lt key 0xc6a4a7935bd1e995 key.length (8 * (key.length / 8)) _ hb
  have hf := xor_shift_lt _ 47 ht
  have hg : ∀ x : Nat, (x % 2 ^ 64 ^^^ (x % 2 ^ 64) >>> 47) % 2 ^ 64
      = x % 2 ^ 64 ^^^ (x % 2 ^ 64) >>> 47 :=
    fun x => Nat.mod_eq_of_lt (xor_shift_lt _ 47 (Nat.mod_lt _ hW))
  simp only [spec_hash64, MurmurHash64A]
  simp only [U64_eq] at *
  rw [Nat.mod_eq_of_lt h0, hB]
  dsimp only
  rw [← hT, Nat.mod_eq_of_lt hf, hg]

theorem MurmurHash64A_eq_spec_witness :
    (12345 : Nat) < 2 ^ 64
      ∧ MurmurHash64A (bytes "test") (bytes "test").length 12345
          = spec_hash64 (bytes "test") 12345 :=
  ⟨by norm_num, MurmurHash64A_eq_spec (bytes "test") 12345 (by norm_num)⟩

/-! ## Facts about `permute_and_compare` -/

theorem permute_set_fst (G : Prng) (P : Nat) (set : Nat → Nat) (rng : G.State) (n : Nat) :
    (permute_set G P n set rng).1 = permutation_matrix G P n set := by
  induction n with
  | zero => rfl
  | succ n ih =>
    unfold permute_set permutation_matrix at *
    rw [List.range_succ, List.foldl_append, List.map_append]
    simp only [List.foldl_cons, List.foldl_nil, List.map_cons, List.map_nil]
    rw [ih]

theorem permutation_matrix_entry (G : Prng) (P : Nat) (set : Nat → Nat) (n j i : Nat)
    (hj : j < n) :
    ((permutation_matrix G P n set).getD j []).getD i 0 = row_value G P (set j) i := by
  simp [permutation_matrix, row_value, List.getD_eq_getElem?_getD, List.getElem?_range hj]

theorem column_min_succ (p : List (List Nat)) (i u k : Nat) :
    column_min p (k + 1) i u
      = if k = 0 then (p.getD k []).getD i 0
        else min (column_min p k i u) ((p.getD k []).getD i 0) := by
  unfold column_min
  rw [List.range_succ, List.foldl_append]
  simp only [List.foldl_cons, List.foldl_nil]
  split
  · rfl
  · split
    · rw [min_eq_left (le_of_lt ‹_›)]
    · rw [min_eq_right (not_lt.mp ‹_›)]

/-- With at least one row, the loop of `column_min` ends with a value that is below
every entry of the column and is one of them. -/
theorem column_min_least (p : List (List Nat)) (i u : Nat) (k : Nat) :
    (∀ j, j ≤ k → column_min p (k + 1) i u ≤ (p.getD j []).getD i 0)
      ∧ ∃ j, j ≤ k ∧ column_min p (k + 1) i u = (p.getD j []).getD i 0 := by
  induction k with
  | zero =>
    rw [column_min_succ]
    simp
  | succ k ih =>
    rw [column_min_succ, if_neg (Nat.succ_ne_zero k)]
    obtain ⟨hle, j0, hj0, heq⟩ := ih
    constructor
    · intro j hj
      rcases Nat.lt_or_ge j (k + 1) with h | h
      · exact le_trans (min_le_left _ _) (hle j (Nat.lt_succ_iff.mp h))
      · have : j = k + 1 := le_antisymm hj h
        subst this
        exact min_le_right _ _
    · rcases le_total (column_min p (k + 1) i u) ((p.getD (k + 1) []).getD i 0) with h | h
      · exact ⟨j0, Nat.le_succ_of_le hj0, by rw [min_eq_left h, heq]⟩
      · exact ⟨k + 1, le_refl _, by rw [min_eq_right h]⟩

theorem column_min_start (p : List (List Nat)) (i u v : Nat) (n : Nat) (hn : 0 < n) :
    column_min p n i u = column_min p n i v := by
  obtain ⟨k, rfl⟩ : ∃ k, n = k + 1 := ⟨n - 1, by omega⟩
  induction k with
  | zero => simp [column_min_succ]
  | succ k ih =>
    rw [column_min_succ, column_min_succ p i v, ih (Nat.succ_pos k)]

/-- With at least one fingerprint, `column_min` on the permutation matrix is the least
`j`-th row value over the fingerprints of the set. -/
theorem column_min_eq_inf (G : Prng) (P : Nat) (set : Nat → Nat) (n i u : Nat) (hn : 0 < n) :
    column_min (permutation_matrix G P n set) n i u
      = (Finset.range n).inf' (Finset.nonempty_range_iff.mpr (Nat.ne_of_gt hn))
          (fun j => row_value G P (set j) i) := by
  obtain ⟨k, rfl⟩ : ∃ k, n = k + 1 := ⟨n - 1, by omega⟩
  obtain ⟨hle, j0, hj0, heq⟩ := column_min_least (permutation_matrix G P (k + 1) set) i u k
  apply le_antisymm
  · apply (Finset.le_inf'_iff _ _).mpr
    intro j hj
    have hj' : j < k + 1 := Finset.mem_range.mp hj
    rw [← permutation_matrix_entry G P set (k + 1) j i hj']
    exact hle j (Nat.lt_succ_iff.mp hj')
  · rw [heq, permutation_matrix_entry G P set (k + 1) j0 i (Nat.lt_succ_of_le hj0)]
    exact Finset.inf'_le _ (Finset.mem_range.mpr (Nat.lt_succ_of_le hj0))

theorem resemblance_fold (p1 p2 : List (List Nat)) (n1 n2 : Nat) (h1 : 0 < n1) (h2 : 0 < n2)
    (st : Resemblance) (k : Nat) :
    ((List.range k).foldl (resemblance_step p1 p2 n1 n2) st).matching_mins
      = st.matching_mins
        + ((Finset.range k).filter
            (fun i => column_min p1 n1 i 0 = column_min p2 n2 i 0)).card := by
  induction k with
  | zero => simp
  | succ k ih =>
    rw [List.range_succ, List.foldl_append, Finset.range_succ, Finset.filter_insert]
    simp only [List.foldl_cons, List.foldl_nil, resemblance_step]
    rw [column_min_start p1 k _ 0 n1 h1, column_min_start p2 k _ 0 n2 h2, ih]
    split
    · rw [Finset.card_insert_of_not_mem (by simp)]
      omega
    · rfl

/-- The score of `permute_and_compare` on non-empty sets is the number of matching
columns divided by `PERMUTATIONS`. -/
theorem score_eq (G : Prng) (P : Nat) (rng : G.State) (u1 u2 : Nat) (n1 : Nat)
    (set_1 : Nat → Nat) (n2 : Nat) (set_2 : Nat → Nat) (h1 : 0 < n1) (h2 : 0 < n2) :
    (permute_and_compare G P rng u1 u2 n1 set_1 n2 set_2).1
      = (matching_columns G P n1 set_1 n2 set_2 : ℚ) / (P : ℚ) := by
  simp only [permute_and_compare, matching_columns, permute_set_fst]
  rw [resemblance_fold _ _ n1 n2 h1 h2]
  simp

theorem matching_columns_le (G : Prng) (P n1 n2 : Nat) (set_1 set_2 : Nat → Nat) :
    matching_columns G P n1 set_1 n2 set_2 ≤ P := by
  unfold matching_columns
  exact le_trans (Finset.card_filter_le _ _) (le_of_eq (Finset.card_range P))

/-- C2. For fingerprint sequences of lengths `n1 > 0` and `n2 > 0`,
`permute_and_compare` returns `matches / PERMUTATIONS`, where `matches` is the
number of columns `j < PERMUTATIONS` in which the minimum over `i < n1` of the
`j`-th value of the row of `set_1[i]` equals the minimum over `i < n2` of the
`j`-th value of the row of `set_2[i]`. -/
theorem permute_and_compare_matches (G : Prng) (P : Nat) (rng : G.State) (u1 u2 : Nat)
    (n1 : Nat) (set_1 : Nat → Nat) (n2 : Nat) (set_2 : Nat → Nat)
    (h1 : 0 < n1) (h2 : 0 < n2) :
    (permute_and_compare G P rng u1 u2 n1 set_1 n2 set_2).1
      = (((Finset.range P).filter (fun j =>
            (Finset.range n1).inf' (Finset.nonempty_range_iff.mpr (Nat.ne_of_gt h1))
                (fun i => row_value G P (set_1 i) j)
              = (Finset.range n2).inf' (Finset.nonempty_range_iff.mpr (Nat.ne_of_gt h2))
                (fun i => row_value G P (set_2 i) j))).card : ℚ) / (P : ℚ) := by
  rw [score_eq G P rng u1 u2 n1 set_1 n2 set_2 h1 h2, matching_columns]
  congr 3
  apply Finset.filter_congr
  intro j _
  rw [column_min_eq_inf G P set_1 n1 j 0 h1, column_min_eq_inf G P set_2 n2 j 0 h2]

theorem permute_and_compare_matches_witness :
    (permute_and_compare sample_prng 4 (sample_prng.srand 1) 0 0
        2 (array_of [7, 9]) 3 (array_of [9, 8, 7])).1
      = (((Finset.range 4).filter (fun j =>
            (Finset.range 2).inf' (Finset.nonempty_range_iff.mpr (Nat.ne_of_gt (Nat.succ_pos 1)))
                (fun i => row_value sample_prng 4 (array_of [7, 9] i) j)
              = (Finset.range 3).inf' (Finset.nonempty_range_iff.mpr (Nat.ne_of_gt (Nat.succ_pos 2)))
                (fun i => row_value sample_prng 4 (array_of [9, 8, 7] i) j))).card : ℚ)
          / ((4 : Nat) : ℚ) :=
  permute_and_compare_matches sample_prng 4 (sample_prng.srand 1) 0 0 2 (array_of [7, 9]) 3
    (array_of [9, 8, 7]) (Nat.succ_pos 1) (Nat.succ_pos 2)

/-- C7. For every non-empty fingerprint sequence `F` (and `PERMUTATIONS >= 1`),
`permute_and_compare` applied to `F` against `F` itself returns exactly 1. -/
theorem permute_and_compare_self (G : Prng) (P : Nat) (rng : G.State) (u1 u2 : Nat)
    (n : Nat) (F : Nat → Nat) (hP : 0 < P) (hn : 0 < n) :
    (permute_and_compare G P rng u1 u2 n F n F).1 = 1 := by
  rw [score_eq G P rng u1 u2 n F n F hn hn]
  have hall : matching_columns G P n F n F = P := by
    unfold matching_columns
    rw [Finset.filter_true_of_mem (fun _ _ => rfl), Finset.card_range]
  rw [hall]
  exact div_self (Nat.cast_ne_zero.mpr (Nat.ne_of_gt hP))

theorem permute_and_compare_self_witness :
    (permute_and_compare sample_prng PERMUTATIONS (sample_prng.srand 1) 5 6
        3 (array_of [7, 9, 7]) 3 (array_of [7, 9, 7])).1 = 1 :=
  permute_and_compare_self sample_prng PERMUTATIONS (sample_prng.srand 1) 5 6 3
    (array_of [7, 9, 7]) (by decide) (by decide)

/-- C8. For non-empty fingerprint sequences `A` and `B`,
`permute_and_compare(A, B)` equals `permute_and_compare(B, A)`, whatever the
generator state and the uninitialised locals are at the two calls. -/
theorem permute_and_compare_symm (G : Prng) (P : Nat) (rng rng2 : G.State)
    (u1 u2 w1 w2 : Nat) (nA : Nat) (A : Nat → Nat) (nB : Nat) (B : Nat → Nat)
    (hA : 0 < nA) (hB : 0 < nB) :
    (permute_and_compare G P rng u1 u2 nA A nB B).1
      = (permute_and_compare G P rng2 w1 w2 nB B nA A).1 := by
  rw [score_eq G P rng u1 u2 nA A nB B hA hB, score_eq G P rng2 w1 w2 nB B nA A hB hA]
  have hsym : matching_columns G P nA A nB B = matching_columns G P nB B nA A := by
    unfold matching_columns
    congr 1
    apply Finset.filter_congr
    intro j _
    exact eq_comm
  rw [hsym]

theorem permute_and_compare_symm_witness :
    (permute_and_compare sample_prng 4 (sample_prng.srand 1) 0 0
        2 (array_of [7, 9]) 3 (array_of [9, 8, 7])).1
      = (permute_and_compare sample_prng 4 (sample_prng.srand 2) 3 4
        3 (array_of [9, 8, 7]) 2 (array_of [7, 9])).1 :=
  permute_and_compare_symm sample_prng 4 (sample_prng.srand 1) (sample_prng.srand 2) 0 0 3 4
    2 (array_of [7, 9]) 3 (array_of [9, 8, 7]) (Nat.succ_pos 1) (Nat.succ_pos 2)

/-- C9. For non-empty fingerprint sequences `A` and `B` the score of
`permute_and_compare` is the same on every invocation: it does not depend on
the state `rng` of the process-wide generator when the call starts (nor on the
indeterminate start values of the two minimum variables), every row being
drawn right after `srand` with that row's fingerprint. -/
theorem permute_and_compare_deterministic (G : Prng) (P : Nat) (rng rng2 : G.State)
    (u1 u2 w1 w2 : Nat) (nA : Nat) (A : Nat → Nat) (nB : Nat) (B : Nat → Nat)
    (hA : 0 < nA) (hB : 0 < nB) :
    (permute_and_compare G P rng u1 u2 nA A nB B).1
      = (permute_and_compare G P rng2 w1 w2 nA A nB B).1 := by
  rw [score_eq G P rng u1 u2 nA A nB B hA hB, score_eq G P rng2 w1 w2 nA A nB B hA hB]

theorem permute_and_compare_deterministic_witness :
    (permute_and_compare sample_prng 4 (sample_prng.srand 1) 0 0
        2 (array_of [7, 9]) 3 (array_of [9, 8, 7])).1
      = (permute_and_compare sample_prng 4 (sample_prng.srand 77) 3 4
        2 (array_of [7, 9]) 3 (array_of [9, 8, 7])).1 :=
  permute_and_compare_deterministic sample_prng 4 (sample_prng.srand 1) (sample_prng.srand 77)
    0 0 3 4 2 (array_of [7, 9]) 3 (array_of [9, 8, 7]) (Nat.succ_pos 1) (Nat.succ_pos 2)

/-- C10. For non-empty fingerprint sequences (and `PERMUTATIONS >= 1`) the score
of `permute_and_compare` is `k / PERMUTATIONS` for an integer `k` with
`0 <= k <= PERMUTATIONS`, hence lies in `[0, 1]`; when `PERMUTATIONS = 1` it is
either 0 or 1. -/
theorem permute_and_compare_range (G : Prng) (P : Nat) (rng : G.State) (u1 u2 : Nat)
    (n1 : Nat) (set_1 : Nat → Nat) (n2 : Nat) (set_2 : Nat → Nat)
    (hP : 0 < P) (h1 : 0 < n1) (h2 : 0 < n2) :
    (∃ k : Nat, k ≤ P ∧
        (permute_and_compare G P rng u1 u2 n1 set_1 n2 set_2).1 = (k : ℚ) / (P : ℚ))
      ∧ 0 ≤ (permute_and_compare G P rng u1 u2 n1 set_1 n2 set_2).1
      ∧ (permute_and_compare G P rng u1 u2 n1 set_1 n2 set_2).1 ≤ 1
      ∧ (P = 1 → (permute_and_compare G P rng u1 u2 n1 set_1 n2 set_2).1 = 0
          ∨ (permute_and_compare G P rng u1 u2 n1 set_1 n2 set_2).1 = 1) := by
  rw [score_eq G P rng u1 u2 n1 set_1 n2 set_2 h1 h2]
  have hle := matching_columns_le G P n1 n2 set_1 set_2
  have hPq : (0 : ℚ) < (P : ℚ) := Nat.cast_pos.mpr hP
  have hleq : (matching_columns G P n1 set_1 n2 set_2 : ℚ) ≤ (P : ℚ) := Nat.cast_le.mpr hle
  refine ⟨⟨_, hle, rfl⟩, div_nonneg (Nat.cast_nonneg _) (le_of_lt hPq),
    (div_le_one hPq).mpr hleq, ?_⟩
  intro hone
  subst hone
  have hk : matching_columns G 1 n1 set_1 n2 set_2 = 0
      ∨ matching_columns G 1 n1 set_1 n2 set_2 = 1 := by omega
  rcases hk with hk | hk
  · left; rw [hk]; simp
  · right; rw [hk]; simp

theorem permute_and_compare_range_witness :
    0 ≤ (permute_and_compare sample_prng PERMUTATIONS (sample_prng.srand 1) 0 0
          2 (array_of [7, 9]) 3 (array_of [9, 8, 7])).1
      ∧ (permute_and_compare sample_prng PERMUTATIONS (sample_prng.srand 1) 0 0
          2 (array_of [7, 9]) 3 (array_of [9, 8, 7])).1 ≤ 1 :=
  ⟨(permute_and_compare_range sample_prng PERMUTATIONS (sample_prng.srand 1) 0 0 2
      (array_of [7, 9]) 3 (array_of [9, 8, 7]) (by decide) (by decide) (by decide)).2.1,
    (permute_and_compare_range sample_prng PERMUTATIONS (sample_prng.srand 1) 0 0 2
      (array_of [7, 9]) 3 (array_of [9, 8, 7]) (by decide) (by decide) (by decide)).2.2.1⟩

/-! ## Facts about `get_next_word` -/

theorem get_next_word_loop_token (file : List Byte) :
    ∀ (word w rest : List Byte),
      (∀ c ∈ word, isalpha c = true ∨ isdigit c = true ∨ c = 39) →
      word.head? ≠ some 39 →
      get_next_word_loop file word = (some w, rest) →
      w ≠ [] ∧ (∀ c ∈ w, isalpha c = true ∨ isdigit c = true ∨ c = 39) ∧ w.head? ≠ some 39 := by
  induction file with
  | nil =>
    intro word w rest _ _ h
    simp [get_next_word_loop] at h
  | cons c file ih =>
    intro word w rest hall hhead h
    rw [get_next_word_loop] at h
    split at h
    · rename_i hc
      apply ih (word ++ [c]) w rest _ _ h
      · intro d hd
        rcases List.mem_append.mp hd with hd | hd
        · exact hall d hd
        · have hdc : d = c := by simpa using hd
          subst hdc
          simp only [Bool.or_eq_true, Bool.and_eq_true, decide_eq_true_eq] at hc
          rcases hc with (hc | hc) | hc
          · exact Or.inl hc
          · exact Or.inr (Or.inr hc.1)
          · exact Or.inr (Or.inl hc)
      · cases word with
        | nil =>
          simp only [List.nil_append, List.head?_cons, ne_eq, Option.some.injEq]
          intro hc39
          subst hc39
          exact absurd hc (by decide)
        | cons a word => simpa using hhead
    · split at h
      · rename_i hpos
        simp only [Prod.mk.injEq, Option.some.injEq] at h
        obtain ⟨rfl, _⟩ := h
        exact ⟨List.ne_nil_of_length_pos hpos, hall, hhead⟩
      · exact ih word w rest hall hhead h

/-- C5. For every character stream (read from any position), a token returned by
`get_next_word` is non-empty, contains only alphabetic characters, digits and
apostrophes (character 39), and does not begin with an apostrophe. -/
theorem get_next_word_token (file w rest : List Byte)
    (h : get_next_word file = (some w, rest)) :
    w ≠ [] ∧ (∀ c ∈ w, isalpha c = true ∨ isdigit c = true ∨ c = 39) ∧ w.head? ≠ some 39 :=
  get_next_word_loop_token file [] w rest (by simp) (by simp) h

theorem get_next_word_token_witness :
    bytes "don't" ≠ []
      ∧ (∀ c ∈ bytes "don't", isalpha c = true ∨ isdigit c = true ∨ c = 39)
      ∧ (bytes "don't").head? ≠ some 39 :=
  get_next_word_token (bytes " 'don't stop") (bytes "don't") (bytes "stop") (by decide)

/-- A word returned by `get_next_word` contains no NUL byte: it is a C string whose
length is the number of its characters. -/
theorem get_next_word_no_nul (file w rest : List Byte)
    (h : get_next_word file = (some w, rest)) : (0 : Byte) ∉ w := by
  intro h0
  rcases (get_next_word_loop_token file [] w rest (by simp) (by simp) h).2.1 0 h0 with h1 | h1 | h1
  · exact absurd h1 (by decide)
  · exact absurd h1 (by decide)
  · exact absurd h1 (by decide)

/-- C6 fails on the code. On the stream `abc`, which ends in a word that no
delimiter follows, `get_next_word` returns `NULL` although the stream contains
alphabetic characters: the loop leaves at `EOF` with the pending word unreturned. -/
theorem get_next_word_drops_last_word :
    get_next_word (bytes "abc") = (none, []) ∧ ∃ c ∈ bytes "abc", isalpha c = true := by
  decide

/-! ## Facts about the shingling loop -/

theorem strlen_of_no_nul (w : List Byte) (h : (0 : Byte) ∉ w) : strlen w = w.length := by
  unfold strlen
  rw [List.takeWhile_eq_self_iff.mpr]
  intro c hc
  simp only [ne_eq, decide_not, Bool.not_eq_eq_eq_not, Bool.not_true, decide_eq_false_iff_not]
  rintro rfl
  exact h hc

theorem strncpy_of_no_nul (w : List Byte) (h : (0 : Byte) ∉ w) : strncpy w w.length = w := by
  unfold strncpy
  rw [List.takeWhile_eq_self_iff.mpr]
  · simp
  · intro c hc
    simp only [ne_eq, decide_not, Bool.not_eq_eq_eq_not, Bool.not_true, decide_eq_false_iff_not]
    rintro rfl
    exact h hc

theorem slot_ne (S j n : Nat) (h1 : j < n) (h2 : n < j + S) : j % S ≠ n % S := by
  intro h
  have hd : S ∣ n - j := (Nat.modEq_iff_dvd' (le_of_lt h1)).mp h
  have := Nat.le_of_dvd (by omega) hd
  omega

theorem holds_start (S BUFSIZ : Nat) (circle0 : Nat → List Byte) (lens0 mem0 : Nat → Nat) :
    (Shingler.start BUFSIZ circle0 lens0 mem0).Holds S [] := by
  refine ⟨rfl, ?_, ?_⟩
  · simp [Shingler.start]
  · intro j hj
    simp at hj

theorem holds_add_word (S : Nat) (st : Shingler) (seen : List (List Byte)) (w : List Byte)
    (hw : (0 : Byte) ∉ w) (h : st.Holds S seen) :
    (st.add_word S w).Holds S (seen ++ [w]) := by
  obtain ⟨hc, hi, hs⟩ := h
  refine ⟨?_, ?_, ?_⟩
  · simp [Shingler.add_word, hc]
  · simp [Shingler.add_word, hi]
  · intro j hj hle
    rw [List.length_append, List.length_singleton] at hj hle
    simp only [Shingler.add_word, hi, strlen_of_no_nul w hw, strncpy_of_no_nul w hw]
    rcases Nat.lt_or_ge j seen.length with hlt | hge
    · have hne : j % S ≠ seen.length % S := slot_ne S j seen.length hlt (by omega)
      rw [Function.update_noteq hne, Function.update_noteq hne]
      have hg : (seen ++ [w]).getD j [] = seen.getD j [] := by
        simp [List.getD_eq_getElem?_getD, List.getElem?_append_left hlt]
      rw [hg]
      exact hs j hlt (by omega)
    · have hj' : j = seen.length := by omega
      subst hj'
      simp [List.getD_eq_getElem?_getD]

theorem holds_step (S BUFSIZ seed : Nat) (heap : Nat → List Byte) (st : Shingler)
    (seen : List (List Byte)) (w : List Byte)
    (hw : (0 : Byte) ∉ w) (h : st.Holds S seen) :
    (st.step S BUFSIZ seed heap w).Holds S (seen ++ [w]) := by
  have h2 := holds_add_word S st seen w hw h
  unfold Shingler.step
  dsimp only
  split
  · exact h2
  · exact h2

theorem concatenate_circle_fold (S : Nat) (st : Shingler) (seen : List (List Byte))
    (hS : S ≤ seen.length) (hnul : ∀ t ∈ seen, (0 : Byte) ∉ t) (h : st.Holds S seen) :
    ∀ k, k ≤ S →
      (List.range k).foldl
          (fun (acc : List Byte × Nat) _ =>
            (acc.1 ++ strncpy (st.circle acc.2) (st.circle_lens acc.2), (acc.2 + 1) % S))
          ([], st.circle_index)
        = (((List.range k).map (fun i => seen.getD (seen.length - S + i) [])).flatten,
            (seen.length - S + k) % S) := by
  obtain ⟨_, hi, hs⟩ := h
  intro k
  induction k with
  | zero =>
    intro _
    simp only [List.range_zero, List.foldl_nil, List.map_nil, List.flatten_nil, Nat.add_zero, hi]
    congr 1
    conv_lhs => rw [← Nat.sub_add_cancel hS]
    exact Nat.add_mod_right _ _
  | succ k ih =>
    intro hk
    rw [List.range_succ, List.foldl_append, ih (by omega)]
    simp only [List.foldl_cons, List.foldl_nil, List.map_append, List.map_cons, List.map_nil,
      List.flatten_append, List.flatten_cons, List.flatten_nil, List.append_nil]
    obtain ⟨hc, hl⟩ := hs (seen.length - S + k) (by omega) (by omega)
    have hmem : seen.getD (seen.length - S + k) [] ∈ seen := by
      have hlt : seen.length - S + k < seen.length := by omega
      rw [List.getD_eq_getElem?_getD, List.getElem?_eq_getElem hlt]
      exact List.getElem_mem hlt
    rw [hc, hl, strncpy_of_no_nul _ (hnul _ hmem)]
    congr 1
    rw [Nat.mod_add_mod]
    rfl

theorem concatenate_circle_holds (S : Nat) (st : Shingler) (seen : List (List Byte))
    (hS : S ≤ seen.length) (hnul : ∀ t ∈ seen, (0 : Byte) ∉ t) (h : st.Holds S seen) :
    concatenate_circle S st.circle_index st.circle st.circle_lens
      = ((List.range S).map (fun i => seen.getD (seen.length - S + i) [])).flatten := by
  unfold concatenate_circle
  rw [concatenate_circle_fold S st seen hS hnul h S (le_refl S)]

theorem window_eq (S : Nat) (tokens : List (List Byte)) (k : Nat) (hk : k + S ≤ tokens.length) :
    ((List.range S).map (fun i => tokens.getD (k + i) [])).flatten = window S tokens k := by
  unfold window
  congr 1
  apply List.ext_getElem?
  intro i
  rw [List.getElem?_map, List.getElem?_take, List.getElem?_drop]
  by_cases hi : i < S
  · have hlt : k + i < tokens.length := by omega
    simp [List.getElem?_range hi, hi, List.getD_eq_getElem?_getD, List.getElem?_eq_getElem hlt]
  · simp [hi, List.getElem?_eq_none (l := List.range S) (by simpa using hi)]

theorem shingle_holds (S : Nat) (st : Shingler) (seen : List (List Byte))
    (hnul : ∀ t ∈ seen, (0 : Byte) ∉ t) (h : st.Holds S seen) :
    (st.shingle S).toList
      = if S ≤ seen.length then [window S seen (seen.length - S)] else [] := by
  unfold Shingler.shingle
  rw [h.1]
  split
  · rename_i hS
    rw [concatenate_circle_holds S st seen hS hnul h,
      window_eq S seen (seen.length - S) (by omega)]
    rfl
  · rfl

theorem window_append (S : Nat) (l ws : List (List Byte)) (k : Nat) (h : k + S ≤ l.length) :
    window S (l ++ ws) k = window S l k := by
  unfold window
  rw [List.drop_append_of_le_length (by omega),
    List.take_append_of_le_length (by rw [List.length_drop]; omega)]

theorem emitted_holds (S BUFSIZ seed : Nat) (heap : Nat → List Byte) :
    ∀ (rest : List (List Byte)) (st : Shingler) (seen : List (List Byte)),
      st.Holds S seen → (∀ t ∈ seen ++ rest, (0 : Byte) ∉ t) →
      emitted_shingles S BUFSIZ seed heap st rest
        = ((List.range rest.length).map (fun i =>
            if S ≤ seen.length + 1 + i
            then [window S (seen ++ rest) (seen.length + 1 + i - S)] else [])).flatten := by
  intro rest
  induction rest with
  | nil => intro st seen _ _; simp [emitted_shingles]
  | cons w ws ih =>
    intro st seen h hnul
    have hw : (0 : Byte) ∉ w := hnul w (by simp)
    have hnul2 : ∀ t ∈ seen ++ [w], (0 : Byte) ∉ t := by
      intro t ht
      apply hnul t
      rcases List.mem_append.mp ht with ht | ht
      · exact List.mem_append_left _ ht
      · exact List.mem_append_right _ (by simp at ht; simp [ht])
    have hnul3 : ∀ t ∈ (seen ++ [w]) ++ ws, (0 : Byte) ∉ t := by
      intro t ht
      apply hnul t
      simpa using ht
    rw [emitted_shingles]
    rw [shingle_holds S _ (seen ++ [w]) hnul2 (holds_add_word S st seen w hw h),
      ih _ (seen ++ [w]) (holds_step S BUFSIZ seed heap st seen w hw h) hnul3]
    have hlen : (seen ++ [w]).length = seen.length + 1 := by simp
    have happ : seen ++ [w] ++ ws = seen ++ w :: ws := by simp
    rw [hlen, happ, List.length_cons, List.range_succ_eq_map, List.map_cons, List.flatten_cons,
      List.map_map]
    congr 1
    · by_cases hle : S ≤ seen.length + 1
      · rw [if_pos hle, if_pos (by simpa using hle), ← happ,
          window_append S (seen ++ [w]) ws _ (by rw [hlen]; omega)]
      · rw [if_neg hle, if_neg (by simpa using hle)]
    · congr 1
      apply List.map_congr_left
      intro i _
      simp only [Function.comp, Nat.succ_eq_add_one]
      have e : seen.length + 1 + 1 + i = seen.length + 1 + (i + 1) := by ring
      rw [e]

theorem flatten_windows {α : Type} (S : Nat) (hS : 0 < S) (f : Nat → α) (N : Nat) :
    ((List.range N).map (fun i => if S ≤ 0 + 1 + i then [f (0 + 1 + i - S)] else [])).flatten
      = (List.range (N + 1 - S)).map f := by
  induction N with
  | zero =>
    have : 0 + 1 - S = 0 := by omega
    simp [this]
  | succ N ih =>
    rw [List.range_succ, List.map_append, List.flatten_append, ih]
    simp only [List.map_cons, List.map_nil, List.flatten_cons, List.flatten_nil, List.append_nil]
    split
    · have e : N + 1 + 1 - S = (N + 1 - S) + 1 := by omega
      have e2 : 0 + 1 + N - S = N + 1 - S := by omega
      rw [e, List.range_succ, List.map_append, e2]
      rfl
    · have e : N + 1 + 1 - S = 0 := by omega
      have e2 : N + 1 - S = 0 := by omega
      simp [e, e2]

/-- C3. For every token sequence `t_0 .. t_(N-1)` (C strings, so without NUL
bytes) fed to the shingling loop with `SHINGLE_LENGTH >= 1`, the emitted
shingles are, in order, the concatenations of `t_k, ..., t_(k+SHINGLE_LENGTH-1)`
for `k = 0 .. N - SHINGLE_LENGTH`; for the tokens the, quick, brown, fox and
`SHINGLE_LENGTH = 2` they are thequick, quickbrown, brownfox. -/
theorem emitted_shingles_windows (S BUFSIZ seed : Nat) (heap : Nat → List Byte)
    (circle0 : Nat → List Byte) (lens0 mem0 : Nat → Nat) (tokens : List (List Byte))
    (hS : 0 < S) (hnul : ∀ t ∈ tokens, (0 : Byte) ∉ t) :
    emitted_shingles S BUFSIZ seed heap (Shingler.start BUFSIZ circle0 lens0 mem0) tokens
        = (List.range (tokens.length + 1 - S)).map (window S tokens)
      ∧ emitted_shingles 2 BUFSIZ seed heap (Shingler.start BUFSIZ circle0 lens0 mem0)
          [bytes "the", bytes "quick", bytes "brown", bytes "fox"]
        = [bytes "thequick", bytes "quickbrown", bytes "brownfox"] := by
  have key : ∀ (S : Nat) (tokens : List (List Byte)), 0 < S → (∀ t ∈ tokens, (0 : Byte) ∉ t) →
      emitted_shingles S BUFSIZ seed heap (Shingler.start BUFSIZ circle0 lens0 mem0) tokens
        = (List.range (tokens.length + 1 - S)).map (window S tokens) := by
    intro S tokens hS hnul
    rw [emitted_holds S BUFSIZ seed heap tokens _ [] (holds_start S BUFSIZ circle0 lens0 mem0)
      (by simpa using hnul)]
    simp only [List.length_nil, List.nil_append]
    exact flatten_windows S hS (window S tokens) tokens.length
  refine ⟨key S tokens hS hnul, ?_⟩
  rw [key 2 _ (by decide) (by decide)]
  decide

theorem emitted_shingles_windows_witness :
    emitted_shingles SHINGLE_LENGTH 8192 5 (fun _ => []) (Shingler.start 8192 (fun _ => [])
        (fun _ => 0) (fun _ => 0)) [bytes "a", bytes "bc", bytes "d"]
      = (List.range ([bytes "a", bytes "bc", bytes "d"].length + 1 - SHINGLE_LENGTH)).map
          (window SHINGLE_LENGTH [bytes "a", bytes "bc", bytes "d"]) :=
  (emitted_shingles_windows SHINGLE_LENGTH 8192 5 (fun _ => []) (fun _ => []) (fun _ => 0)
    (fun _ => 0) [bytes "a", bytes "bc", bytes "d"] (by decide) (by decide)).1

theorem shingle_loop_general (S BUFSIZ seed : Nat) (heap : Nat → List Byte) :
    ∀ (words : List (List Byte)) (st : Shingler),
      (shingle_loop S BUFSIZ seed heap st words).shingles_count
          = st.shingles_count + words.length
        ∧ (shingle_loop S BUFSIZ seed heap st words).stored_shingles
          = st.stored_shingles + (emitted_shingles S BUFSIZ seed heap st words).length
        ∧ (emitted_shingles S BUFSIZ seed heap st words).length
          = st.shingles_count + words.length + 1 - max (st.shingles_count + 1) S
        ∧ (∀ k, k < (emitted_shingles S BUFSIZ seed heap st words).length →
            (shingle_loop S BUFSIZ seed heap st words).shingles (st.stored_shingles + k)
              = MurmurHash64A
                  ((emitted_shingles S BUFSIZ seed heap st words).getD k []
                    ++ heap (max (st.shingles_count + 1) S + k))
                  (strlen ((emitted_shingles S BUFSIZ seed heap st words).getD k []
                    ++ heap (max (st.shingles_count + 1) S + k)))
                  seed)
        ∧ ∀ i, i < st.stored_shingles →
            (shingle_loop S BUFSIZ seed heap st words).shingles i = st.shingles i := by
  intro words
  induction words with
  | nil =>
    intro st
    refine ⟨rfl, rfl, ?_, ?_, fun _ _ => rfl⟩
    · simp only [emitted_shingles, List.length_nil]
      omega
    · intro k hk
      simp [emitted_shingles] at hk
  | cons w ws ih =>
    intro st
    have hloop : shingle_loop S BUFSIZ seed heap st (w :: ws)
        = shingle_loop S BUFSIZ seed heap (st.step S BUFSIZ seed heap w) ws := rfl
    obtain ⟨i1, i2, i3, i4, i5⟩ := ih (st.step S BUFSIZ seed heap w)
    rw [hloop, emitted_shingles]
    by_cases hle : S ≤ st.shingles_count + 1
    · have hsh : (st.add_word S w).shingle S
          = some (concatenate_circle S (st.add_word S w).circle_index (st.add_word S w).circle
              (st.add_word S w).circle_lens) := by
        simp [Shingler.shingle, Shingler.add_word, hle]
      have hstep : st.step S BUFSIZ seed heap w
          = (st.add_word S w).store BUFSIZ seed (heap (st.shingles_count + 1))
              (concatenate_circle S (st.add_word S w).circle_index (st.add_word S w).circle
                (st.add_word S w).circle_lens) := by
        simp only [Shingler.step, hsh]
        rfl
      have hcount : (st.step S BUFSIZ seed heap w).shingles_count = st.shingles_count + 1 := by
        rw [hstep]; rfl
      have hstored : (st.step S BUFSIZ seed heap w).stored_shingles
          = st.stored_shingles + 1 := by
        rw [hstep]; rfl
      rw [hcount] at i1 i3 i4
      rw [hstored] at i2 i4 i5
      rw [hsh]
      simp only [Option.toList, List.singleton_append, List.length_cons]
      refine ⟨by omega, by omega, by omega, ?_, ?_⟩
      · intro k hk
        cases k with
        | zero =>
          rw [Nat.add_zero, i5 _ (Nat.lt_succ_self _), hstep]
          have e : max (st.shingles_count + 1) S + 0 = st.shingles_count + 1 := by omega
          simp only [Shingler.store, Shingler.add_word, Function.update_same, List.getD_cons_zero, e]
        | succ k =>
          have e : max (st.shingles_count + 1) S + (k + 1)
              = max (st.shingles_count + 1 + 1) S + k := by omega
          have e2 : st.stored_shingles + (k + 1) = st.stored_shingles + 1 + k := by omega
          rw [e, e2, i4 k (by omega)]
          simp only [List.getD_cons_succ]
      · intro i hi
        rw [i5 i (by omega), hstep]
        simp only [Shingler.store, Shingler.add_word]
        exact Function.update_noteq (by omega) _ _
    · have hsh : (st.add_word S w).shingle S = none := by
        simp [Shingler.shingle, Shingler.add_word, hle]
      have hstep : st.step S BUFSIZ seed heap w = st.add_word S w := by
        simp only [Shingler.step, hsh]
      have hcount : (st.step S BUFSIZ seed heap w).shingles_count = st.shingles_count + 1 := by
        rw [hstep]; rfl
      have hstored : (st.step S BUFSIZ seed heap w).stored_shingles = st.stored_shingles := by
        rw [hstep]; rfl
      rw [hcount] at i1 i3 i4
      rw [hstored] at i2 i4 i5
      rw [hsh]
      simp only [Option.toList, List.nil_append, List.length_cons]
      refine ⟨by omega, by omega, by omega, ?_, ?_⟩
      · intro k hk
        have e : max (st.shingles_count + 1) S + k = max (st.shingles_count + 1 + 1) S + k := by
          omega
        rw [e, i4 k hk]
      · intro i hi
        rw [i5 i hi, hstep]
        rfl

/-- C4. For every sequence of `N` tokens and `SHINGLE_LENGTH >= 1`, the
shingling loop ends with the stored-fingerprint counter at
`max(0, N - SHINGLE_LENGTH + 1)` (written `N + 1 - SHINGLE_LENGTH` in natural
numbers) and the word counter at `N`; as many strings are emitted, and entry `k`
of the fingerprint array is the hash of the `k`-th emitted string, the one built
when the word counter was `SHINGLE_LENGTH + k`: one fingerprint per token once
`SHINGLE_LENGTH` tokens have been seen, in emission order, none dropped. -/
theorem shingle_loop_stored (S BUFSIZ seed : Nat) (heap : Nat → List Byte)
    (circle0 : Nat → List Byte) (lens0 mem0 : Nat → Nat) (tokens : List (List Byte))
    (hS : 0 < S) :
    (shingle_loop S BUFSIZ seed heap (Shingler.start BUFSIZ circle0 lens0 mem0)
        tokens).stored_shingles = tokens.length + 1 - S
      ∧ (shingle_loop S BUFSIZ seed heap (Shingler.start BUFSIZ circle0 lens0 mem0)
        tokens).shingles_count = tokens.length
      ∧ (emitted_shingles S BUFSIZ seed heap (Shingler.start BUFSIZ circle0 lens0 mem0)
        tokens).length = tokens.length + 1 - S
      ∧ ∀ k, k < tokens.length + 1 - S →
          (shingle_loop S BUFSIZ seed heap (Shingler.start BUFSIZ circle0 lens0 mem0)
              tokens).shingles k
            = MurmurHash64A
                ((emitted_shingles S BUFSIZ seed heap
                    (Shingler.start BUFSIZ circle0 lens0 mem0) tokens).getD k []
                  ++ heap (S + k))
                (strlen ((emitted_shingles S BUFSIZ seed heap
                    (Shingler.start BUFSIZ circle0 lens0 mem0) tokens).getD k []
                  ++ heap (S + k)))
                seed := by
  obtain ⟨g1, g2, g3, g4, _⟩ := shingle_loop_general S BUFSIZ seed heap tokens
    (Shingler.start BUFSIZ circle0 lens0 mem0)
  have hc : (Shingler.start BUFSIZ circle0 lens0 mem0).shingles_count = 0 := rfl
  have hs : (Shingler.start BUFSIZ circle0 lens0 mem0).stored_shingles = 0 := rfl
  rw [hc] at g1 g3 g4
  rw [hs] at g2 g4
  have hmax : max (0 + 1) S = S := by omega
  rw [hmax] at g3 g4
  refine ⟨by omega, by omega, by omega, ?_⟩
  intro k hk
  have := g4 k (by omega)
  rw [Nat.zero_add] at this
  exact this

theorem shingle_loop_stored_witness :
    0 < SHINGLE_LENGTH
      ∧ (shingle_loop SHINGLE_LENGTH 8192 5 (fun _ => []) (Shingler.start 8192 (fun _ => [])
          (fun _ => 0) (fun _ => 0))
          [bytes "a", bytes "bc", bytes "a", bytes "bc"]).stored_shingles
        = [bytes "a", bytes "bc", bytes "a", bytes "bc"].length + 1 - SHINGLE_LENGTH :=
  ⟨by decide,
    (shingle_loop_stored SHINGLE_LENGTH 8192 5 (fun _ => []) (fun _ => []) (fun _ => 0)
      (fun _ => 0) [bytes "a", bytes "bc", bytes "a", bytes "bc"] (by decide)).1⟩


/-! ## Facts about the tokenization -/

theorem getLast?_tail_of_ne_nil (c : Byte) (cs : List Byte) (h : cs ≠ []) :
    (c :: cs).getLast? = cs.getLast? := by
  cases cs with
  | nil => exact absurd rfl h
  | cons d ds => exact List.getLast?_cons_cons

theorem strip_of_head (word : List Byte) (h : word.head? ≠ some 39) :
    List.dropWhile (fun c => decide (c = (39 : Byte))) word = word := by
  cases word with
  | nil => rfl
  | cons a w =>
    have ha : a ≠ 39 := by simpa using h
    simp [List.dropWhile, ha]

theorem tokens_loop (file : List Byte) :
    ∀ (word : List Byte) (fuel : Nat), file.length ≤ fuel → word.head? ≠ some 39 →
      (∀ c, file.getLast? = some c → is_delimiter c = true) → (file = [] → word = []) →
      (match get_next_word_loop file word with
        | (some w, rest) => w :: words_fuel fuel rest
        | (none, _) => [])
        = ((List.modifyHead (fun piece => word ++ piece) (file.splitOnP is_delimiter)).map
            (List.dropWhile (fun c => c = 39))).filter (fun piece => !piece.isEmpty) := by
  induction file with
  | nil =>
    intro word fuel _ _ _ hw
    rw [hw rfl]
    simp [get_next_word_loop, List.splitOnP_nil]
  | cons c cs ih =>
    intro word fuel hfuel hhead hlast hw
    obtain ⟨p, ps, hS⟩ : ∃ p ps, cs.splitOnP is_delimiter = p :: ps := by
      cases h : cs.splitOnP is_delimiter with
      | nil => exact absurd h (List.splitOnP_ne_nil _ _)
      | cons p ps => exact ⟨p, ps, rfl⟩
    have hlen : cs.length ≤ fuel := by
      simp only [List.length_cons] at hfuel
      omega
    by_cases hd : is_delimiter c = true
    · -- a delimiter ends the pending word, if there is one
      have hcond : (isalpha c || (decide (c = 39) && decide (0 < word.length)) || isdigit c)
          = false := by
        simp only [is_delimiter, Bool.not_eq_true', Bool.or_eq_false_iff,
          decide_eq_false_iff_not] at hd
        simp [hd.1.1, hd.1.2, hd.2]
      rw [get_next_word_loop, List.splitOnP_cons, if_pos hd, List.modifyHead_cons,
        List.append_nil]
      simp only [hcond, Bool.false_eq_true, if_false]
      by_cases hpos : 0 < word.length
      · rw [if_pos hpos]
        obtain ⟨f, rfl⟩ : ∃ f, fuel = f + 1 := ⟨fuel - 1, by
          simp only [List.length_cons] at hfuel; omega⟩
        have hcs := ih [] f (by simp only [List.length_cons] at hfuel; omega) (by simp)
          (fun d hdl => by
            by_cases hnil : cs = []
            · subst hnil; simp at hdl
            · exact hlast d (by rw [getLast?_tail_of_ne_nil c cs hnil]; exact hdl))
          (fun _ => rfl)
        have hne : word ≠ [] := List.ne_nil_of_length_pos hpos
        show word :: words_fuel (f + 1) cs = _
        rw [words_fuel, get_next_word, hcs, hS]
        simp [strip_of_head word hhead, hne]
      · rw [if_neg hpos]
        have hnil : word = [] := by
          cases word with
          | nil => rfl
          | cons a w => simp at hpos
        subst hnil
        rw [ih [] fuel hlen (by simp)
          (fun d hdl => by
            by_cases hnil : cs = []
            · subst hnil; simp at hdl
            · exact hlast d (by rw [getLast?_tail_of_ne_nil c cs hnil]; exact hdl))
          (fun _ => rfl), hS]
        simp
    · -- a letter, a digit or an apostrophe
      have hcs : cs ≠ [] := by
        intro hnil
        subst hnil
        exact hd (hlast c rfl)
      have hlast2 : ∀ d, cs.getLast? = some d → is_delimiter d = true := fun d hdl =>
        hlast d (by rw [getLast?_tail_of_ne_nil c cs hcs]; exact hdl)
      rw [get_next_word_loop, List.splitOnP_cons, if_neg hd, hS, List.modifyHead_cons,
        List.modifyHead_cons]
      by_cases hcond : (isalpha c || (decide (c = 39) && decide (0 < word.length)) || isdigit c)
          = true
      · rw [if_pos hcond, ih (word ++ [c]) fuel hlen _ hlast2 (fun h => absurd h hcs), hS,
          List.modifyHead_cons]
        · simp
        · cases word with
          | nil =>
            simp only [List.nil_append, List.head?_cons, ne_eq, Option.some.injEq]
            intro hc39
            subst hc39
            exact absurd hcond (by decide)
          | cons a w => simpa using hhead
      · have h39 : c = 39 := by
          simp only [is_delimiter, Bool.not_eq_true', Bool.not_eq_false, Bool.or_eq_true,
            decide_eq_true_eq] at hd
          simp only [Bool.or_eq_true, Bool.and_eq_true, decide_eq_true_eq, not_or, not_and,
            Bool.not_eq_true] at hcond
          rcases hd with (ha | hdg) | h39
          · rw [ha] at hcond; exact absurd hcond.1.1 (by simp)
          · rw [hdg] at hcond; exact absurd hcond.2 (by simp)
          · exact h39
        subst h39
        have hnil : word = [] := by
          cases word with
          | nil => rfl
          | cons a w => exact absurd (by simp) hcond
        subst hnil
        rw [if_neg hcond, if_neg (by simp), ih [] fuel hlen (by simp) hlast2 (fun _ => rfl), hS,
          List.modifyHead_cons]
        simp [List.dropWhile]

theorem get_next_word_loop_rest (file : List Byte) :
    ∀ (word w rest : List Byte), get_next_word_loop file word = (some w, rest) →
      rest.length < file.length := by
  induction file with
  | nil => intro word w rest h; simp [get_next_word_loop] at h
  | cons c cs ih =>
    intro word w rest h
    rw [get_next_word_loop] at h
    simp only [List.length_cons]
    split at h
    · exact Nat.lt_succ_of_lt (ih _ w rest h)
    · split at h
      · simp only [Prod.mk.injEq] at h
        rw [← h.2]
        exact Nat.lt_succ_self _
      · exact Nat.lt_succ_of_lt (ih _ w rest h)

/-- The loop `while (word != NULL)` ends: once the fuel exceeds the length of the
stream, more fuel does not change the words read. -/
theorem words_fuel_enough :
    ∀ (n : Nat) (file : List Byte) (fuel : Nat), file.length ≤ n → file.length < fuel →
      words_fuel fuel file = words file := by
  intro n
  induction n with
  | zero =>
    intro file fuel hn hf
    have hnil : file = [] := List.eq_nil_of_length_eq_zero (Nat.le_zero.mp hn)
    subst hnil
    obtain ⟨f, rfl⟩ : ∃ f, fuel = f + 1 := ⟨fuel - 1, by omega⟩
    simp [words, words_fuel, get_next_word, get_next_word_loop]
  | succ n ih =>
    intro file fuel hn hf
    obtain ⟨f, rfl⟩ : ∃ f, fuel = f + 1 := ⟨fuel - 1, by omega⟩
    unfold words
    rw [words_fuel, words_fuel]
    cases hg : get_next_word file with
    | mk r rest =>
      cases r with
      | none => rfl
      | some w =>
        have hlt := get_next_word_loop_rest file [] w rest hg
        simp only
        rw [ih rest f (by omega) (by omega), ih rest file.length (by omega) hlt]

/-- C19. For every character stream whose last character is a delimiter (neither
alphabetic, nor a digit, nor an apostrophe), the words returned by calling
`get_next_word` from the start until it returns `NULL` are the reference
tokenization: the stream split at every delimiter, each piece stripped of its
leading apostrophes, the empty pieces dropped, in the original order. -/
theorem words_eq_spec_tokens (file : List Byte) (c : Byte)
    (hlast : file.getLast? = some c) (hc : is_delimiter c = true) :
    words file = spec_tokens file := by
  unfold words spec_tokens
  rw [words_fuel, get_next_word]
  rw [tokens_loop file [] file.length (le_refl _) (by simp)
    (fun d hd => by rw [hlast] at hd; cases hd; exact hc)
    (fun h => rfl)]
  congr 2
  cases file.splitOnP is_delimiter with
  | nil => rfl
  | cons p ps => rfl

theorem words_eq_spec_tokens_witness :
    words (bytes "it's 'bout time, isn't it? ''' x9 ")
      = spec_tokens (bytes "it's 'bout time, isn't it? ''' x9 ") :=
  words_eq_spec_tokens (bytes "it's 'bout time, isn't it? ''' x9 ") 32 (by decide) (by decide)

/-! ## Rows of the permutation matrix, empty sets, matching columns -/

theorem permute_row_eq (G : Prng) (s : G.State) (P : Nat) :
    (permute_row G P s).1 = (List.range P).map (nth_rand G s)
      ∧ (permute_row G P s).2 = (fun t => (G.rand t).2)^[P] s := by
  induction P with
  | zero => exact ⟨rfl, rfl⟩
  | succ P ih =>
    unfold permute_row at *
    rw [List.range_succ, List.foldl_append, List.map_append]
    simp only [List.foldl_cons, List.foldl_nil, List.map_cons, List.map_nil]
    rw [ih.1, ih.2]
    exact ⟨rfl, (Function.iterate_succ_apply' (fun t => (G.rand t).2) P s).symm⟩

theorem permutation_matrix_row (G : Prng) (P : Nat) (set : Nat → Nat) (n i : Nat)
    (hi : i < n) :
    (permutation_matrix G P n set).getD i []
      = (List.range P).map (nth_rand G (G.srand (set i % 2 ^ 32))) := by
  simp [permutation_matrix, List.getD_eq_getElem?_getD, List.getElem?_range hi,
    (permute_row_eq G _ P).1]

theorem permute_set_snd (G : Prng) (P : Nat) (set : Nat → Nat) (rng : G.State) (n : Nat)
    (hn : 0 < n) :
    (permute_set G P n set rng).2
      = (fun t => (G.rand t).2)^[P] (G.srand (set (n - 1) % 2 ^ 32)) := by
  obtain ⟨k, rfl⟩ : ∃ k, n = k + 1 := ⟨n - 1, by omega⟩
  unfold permute_set
  rw [List.range_succ, List.foldl_append]
  simp only [List.foldl_cons, List.foldl_nil, Nat.add_sub_cancel]
  exact (permute_row_eq G _ P).2

/-- C14. For the fingerprint at any index `i` of a set, row `i` of the
permutation matrix that `permute_and_compare` fills has exactly `PERMUTATIONS`
entries, and its `j`-th entry is the `j`-th successive output of `rand()` after
`srand` was called with that fingerprint (converted to `unsigned int`); so
equal fingerprints yield equal rows, whichever set and position they occupy
and whatever the generator state was before. -/
theorem permutation_row_entries (G : Prng) (P : Nat) (rng : G.State) (n : Nat)
    (set : Nat → Nat) (i : Nat) (hi : i < n) :
    ((permute_set G P n set rng).1.getD i []).length = P
      ∧ (∀ j, j < P → ((permute_set G P n set rng).1.getD i []).getD j 0
          = nth_rand G (G.srand (set i % 2 ^ 32)) j)
      ∧ ∀ (rng2 : G.State) (n2 : Nat) (set2 : Nat → Nat) (i2 : Nat), i2 < n2 →
          set2 i2 = set i →
          (permute_set G P n2 set2 rng2).1.getD i2 [] = (permute_set G P n set rng).1.getD i [] := by
  refine ⟨?_, ?_, ?_⟩
  · rw [permute_set_fst, permutation_matrix_row G P set n i hi]
    simp
  · intro j hj
    rw [permute_set_fst, permutation_matrix_row G P set n i hi]
    simp [List.getD_eq_getElem?_getD, List.getElem?_range hj]
  · intro rng2 n2 set2 i2 hi2 heq
    rw [permute_set_fst, permute_set_fst, permutation_matrix_row G P set n i hi,
      permutation_matrix_row G P set2 n2 i2 hi2, heq]

theorem permutation_row_entries_witness :
    ((permute_set sample_prng PERMUTATIONS 3 (array_of [9, 8, 7]) (sample_prng.srand 1)).1.getD
        2 []).length = PERMUTATIONS :=
  (permutation_row_entries sample_prng PERMUTATIONS (sample_prng.srand 1) 3 (array_of [9, 8, 7])
    2 (by decide)).1

theorem permute_and_compare_fst (G : Prng) (P : Nat) (rng : G.State) (u1 u2 : Nat)
    (n1 : Nat) (set_1 : Nat → Nat) (n2 : Nat) (set_2 : Nat → Nat) :
    (permute_and_compare G P rng u1 u2 n1 set_1 n2 set_2).1
      = (final_matching_mins G P rng u1 u2 n1 set_1 n2 set_2 : ℚ) / (P : ℚ) := rfl

theorem resemblance_fold_le (p1 p2 : List (List Nat)) (n1 n2 : Nat) (st : Resemblance)
    (k : Nat) :
    ((List.range k).foldl (resemblance_step p1 p2 n1 n2) st).matching_mins
      ≤ st.matching_mins + k := by
  induction k with
  | zero => simp
  | succ k ih =>
    rw [List.range_succ, List.foldl_append]
    simp only [List.foldl_cons, List.foldl_nil, resemblance_step]
    split <;> omega

theorem final_matching_mins_le (G : Prng) (P : Nat) (rng : G.State) (u1 u2 : Nat)
    (n1 : Nat) (set_1 : Nat → Nat) (n2 : Nat) (set_2 : Nat → Nat) :
    final_matching_mins G P rng u1 u2 n1 set_1 n2 set_2 ≤ P := by
  unfold final_matching_mins
  have h := resemblance_fold_le (permute_set G P n1 set_1 rng).1
    (permute_set G P n2 set_2 (permute_set G P n1 set_1 rng).2).1 n1 n2
    { matching_mins := 0, calculated_mins := 0, set_1_min := u1, set_2_min := u2 } P
  simpa using h

/-- C13 as amended. If either fingerprint sequence is empty, `permute_and_compare`
raises no error: it still returns a score `k / PERMUTATIONS` with
`0 <= k <= PERMUTATIONS`. -/
theorem permute_and_compare_empty_total (G : Prng) (P : Nat) (rng : G.State) (u1 u2 : Nat)
    (n : Nat) (set_1 set_2 : Nat → Nat) :
    (∃ k : Nat, k ≤ P ∧
        (permute_and_compare G P rng u1 u2 0 set_1 n set_2).1 = (k : ℚ) / (P : ℚ))
      ∧ ∃ k : Nat, k ≤ P ∧
        (permute_and_compare G P rng u1 u2 n set_1 0 set_2).1 = (k : ℚ) / (P : ℚ) :=
  ⟨⟨final_matching_mins G P rng u1 u2 0 set_1 n set_2,
      final_matching_mins_le G P rng u1 u2 0 set_1 n set_2,
      permute_and_compare_fst G P rng u1 u2 0 set_1 n set_2⟩,
    ⟨final_matching_mins G P rng u1 u2 n set_1 0 set_2,
      final_matching_mins_le G P rng u1 u2 n set_1 0 set_2,
      permute_and_compare_fst G P rng u1 u2 n set_1 0 set_2⟩⟩

/-- C18. `MurmurHash64A` applied to the empty byte sequence (`len = 0`) with
`seed = 0` returns 0. -/
theorem MurmurHash64A_empty : MurmurHash64A [] 0 0 = 0 := by
  decide

theorem column_min_row_values (G : Prng) (P : Nat) (set : Nat → Nat) (n j u : Nat)
    (hn : 0 < n) :
    (∀ i, i < n → column_min (permutation_matrix G P n set) n j u ≤ row_value G P (set i) j)
      ∧ ∃ i, i < n ∧ column_min (permutation_matrix G P n set) n j u
          = row_value G P (set i) j := by
  obtain ⟨k, rfl⟩ : ∃ k, n = k + 1 := ⟨n - 1, by omega⟩
  obtain ⟨hle, i0, hi0, heq⟩ := column_min_least (permutation_matrix G P (k + 1) set) j u k
  constructor
  · intro i hi
    rw [← permutation_matrix_entry G P set (k + 1) i j hi]
    exact hle i (Nat.lt_succ_iff.mp hi)
  · exact ⟨i0, Nat.lt_succ_of_le hi0, by
      rw [heq, permutation_matrix_entry G P set (k + 1) i0 j (Nat.lt_succ_of_le hi0)]⟩

theorem resemblance_step_counts (p1 p2 : List (List Nat)) (n1 n2 : Nat) (st : Resemblance)
    (j : Nat) :
    (resemblance_step p1 p2 n1 n2 st j).matching_mins = st.matching_mins + 1
      ↔ column_min p1 n1 j st.set_1_min = column_min p2 n2 j st.set_2_min := by
  simp only [resemblance_step]
  split
  · simp [*]
  · simp only [*, iff_false]
    omega

/-- C20. For non-empty fingerprint sequences `A` and `B` and a column `j`,
`permute_and_compare` counts column `j` as a match (the iteration for `j`
increments `matching_mins`) if a fingerprint that occurs in both `A` and `B`
attains the minimum of column `j` over all fingerprints of `A` and `B`; and if
distinct fingerprints of `A` and `B` have distinct values in column `j`, the
column is counted exactly in that case. -/
theorem column_counted_iff (G : Prng) (P : Nat) (rng : G.State) (st : Resemblance)
    (nA : Nat) (A : Nat → Nat) (nB : Nat) (B : Nat → Nat) (j : Nat)
    (hA : 0 < nA) (hB : 0 < nB) :
    ((∃ v, (∃ a, a < nA ∧ A a = v) ∧ (∃ b, b < nB ∧ B b = v)
          ∧ (∀ i, i < nA → row_value G P v j ≤ row_value G P (A i) j)
          ∧ (∀ i, i < nB → row_value G P v j ≤ row_value G P (B i) j)) →
        (resemblance_step (permute_set G P nA A rng).1
            (permute_set G P nB B (permute_set G P nA A rng).2).1 nA nB st j).matching_mins
          = st.matching_mins + 1)
      ∧ ((∀ x y, ((∃ a, a < nA ∧ A a = x) ∨ (∃ b, b < nB ∧ B b = x)) →
            ((∃ a, a < nA ∧ A a = y) ∨ (∃ b, b < nB ∧ B b = y)) →
            row_value G P x j = row_value G P y j → x = y) →
        ((resemblance_step (permute_set G P nA A rng).1
            (permute_set G P nB B (permute_set G P nA A rng).2).1 nA nB st j).matching_mins
          = st.matching_mins + 1
          ↔ ∃ v, (∃ a, a < nA ∧ A a = v) ∧ (∃ b, b < nB ∧ B b = v)
              ∧ (∀ i, i < nA → row_value G P v j ≤ row_value G P (A i) j)
              ∧ (∀ i, i < nB → row_value G P v j ≤ row_value G P (B i) j))) := by
  rw [resemblance_step_counts, permute_set_fst, permute_set_fst]
  obtain ⟨hAle, a0, ha0, hAeq⟩ := column_min_row_values G P A nA j st.set_1_min hA
  obtain ⟨hBle, b0, hb0, hBeq⟩ := column_min_row_values G P B nB j st.set_2_min hB
  have hif : (∃ v, (∃ a, a < nA ∧ A a = v) ∧ (∃ b, b < nB ∧ B b = v)
        ∧ (∀ i, i < nA → row_value G P v j ≤ row_value G P (A i) j)
        ∧ (∀ i, i < nB → row_value G P v j ≤ row_value G P (B i) j)) →
      column_min (permutation_matrix G P nA A) nA j st.set_1_min
        = column_min (permutation_matrix G P nB B) nB j st.set_2_min := by
    rintro ⟨v, ⟨a, ha, rfl⟩, ⟨b, hb, hab⟩, hminA, hminB⟩
    have e1 : column_min (permutation_matrix G P nA A) nA j st.set_1_min
        = row_value G P (A a) j :=
      le_antisymm (hAle a ha) (by rw [hAeq]; exact hminA a0 ha0)
    have e2 : column_min (permutation_matrix G P nB B) nB j st.set_2_min
        = row_value G P (A a) j :=
      le_antisymm (by rw [← hab]; exact hBle b hb) (by rw [hBeq]; exact hminB b0 hb0)
    rw [e1, e2]
  refine ⟨hif, fun hinj => ⟨fun hm => ?_, hif⟩⟩
  have hv : A a0 = B b0 :=
    hinj (A a0) (B b0) (Or.inl ⟨a0, ha0, rfl⟩) (Or.inr ⟨b0, hb0, rfl⟩)
      (by rw [← hAeq, ← hBeq, hm])
  refine ⟨A a0, ⟨a0, ha0, rfl⟩, ⟨b0, hb0, hv.symm⟩, ?_, ?_⟩
  · intro i hi
    rw [← hAeq]
    exact hAle i hi
  · intro i hi
    rw [← hAeq, hm]
    exact hBle i hi

theorem column_counted_iff_witness :
    (resemblance_step (permute_set sample_prng 4 2 (array_of [7, 9]) (sample_prng.srand 1)).1
        (permute_set sample_prng 4 2 (array_of [9, 7])
          (permute_set sample_prng 4 2 (array_of [7, 9]) (sample_prng.srand 1)).2).1 2 2
        { matching_mins := 0, calculated_mins := 0, set_1_min := 0, set_2_min := 0 }
        0).matching_mins = 0 + 1 :=
  (column_counted_iff sample_prng 4 (sample_prng.srand 1)
    { matching_mins := 0, calculated_mins := 0, set_1_min := 0, set_2_min := 0 }
    2 (array_of [7, 9]) 2 (array_of [9, 7]) 0 (by decide) (by decide)).1
    ⟨7, ⟨0, by decide, rfl⟩, ⟨1, by decide, rfl⟩, by decide, by decide⟩

/-! ## Facts about the comparison modes -/

theorem compare_files_resemblance (G : Prng) (P S BUFSIZ seed : Nat) (rng : G.State)
    (mem : Memory) (file_1 file_2 : List Byte) :
    (compare_files G P S BUFSIZ seed rng mem file_1 file_2).resemblance
      = (final_matching_mins G P rng mem.u1 mem.u2
          (compare_files G P S BUFSIZ seed rng mem file_1 file_2).set_1_len
          (compare_files G P S BUFSIZ seed rng mem file_1 file_2).f1.shingles
          (compare_files G P S BUFSIZ seed rng mem file_1 file_2).set_2_len
          (compare_files G P S BUFSIZ seed rng mem file_1 file_2).f2.shingles : ℚ) / (P : ℚ) :=
  rfl

/-- The lengths handed to `permute_and_compare` are the word counters, whereas the
numbers of fingerprints stored are the counters `stored_shingles`. -/
theorem compare_files_lengths (G : Prng) (P S BUFSIZ seed : Nat) (rng : G.State)
    (mem : Memory) (file_1 file_2 : List Byte) (hS : 0 < S) :
    (compare_files G P S BUFSIZ seed rng mem file_1 file_2).set_1_len = (words file_1).length
      ∧ (compare_files G P S BUFSIZ seed rng mem file_1 file_2).f1.stored_shingles
          = (words file_1).length + 1 - S
      ∧ (compare_files G P S BUFSIZ seed rng mem file_1 file_2).set_2_len
          = (words file_2).length
      ∧ (compare_files G P S BUFSIZ seed rng mem file_1 file_2).f2.stored_shingles
          = (words file_2).length + 1 - S := by
  obtain ⟨a1, a2, a3, _, _⟩ := shingle_loop_general S BUFSIZ seed mem.heap_1 (words file_1)
    (Shingler.start BUFSIZ mem.circle0 mem.lens0 mem.f1_mem)
  obtain ⟨b1, b2, b3, _, _⟩ := shingle_loop_general S BUFSIZ seed mem.heap_2 (words file_2)
    (Shingler.start BUFSIZ
      (shingle_loop S BUFSIZ seed mem.heap_1
        (Shingler.start BUFSIZ mem.circle0 mem.lens0 mem.f1_mem) (words file_1)).circle
      (fun i => if i < S then 0 else
        (shingle_loop S BUFSIZ seed mem.heap_1
          (Shingler.start BUFSIZ mem.circle0 mem.lens0 mem.f1_mem) (words file_1)).circle_lens i)
      mem.f2_mem)
  simp only [Shingler.start] at a1 a2 a3 b1 b2 b3
  simp only [compare_files, Shingler.start]
  refine ⟨by omega, by omega, by omega, by omega⟩

/-- C11 fails on the code. For the two-word documents `a b ` and `c d ` the
comparison stores one fingerprint per document but hands the lengths 2 and 2 (the
word counters) to `permute_and_compare`, which therefore also reads element 1
of each array, an element the loop never wrote (it still holds the
indeterminate values 11 and 22 of the allocation). -/
theorem compare_files_reads_unwritten :
    (option_2 sample_prng 4 SHINGLE_LENGTH 8192 0 (sample_prng.srand 1) (sample_memory 11 22)
        (bytes "a b ") (bytes "c d ")).set_1_len = 2
      ∧ (option_2 sample_prng 4 SHINGLE_LENGTH 8192 0 (sample_prng.srand 1) (sample_memory 11 22)
        (bytes "a b ") (bytes "c d ")).f1.stored_shingles = 1
      ∧ (option_2 sample_prng 4 SHINGLE_LENGTH 8192 0 (sample_prng.srand 1) (sample_memory 11 22)
        (bytes "a b ") (bytes "c d ")).f1.shingles 1 = 11
      ∧ (option_2 sample_prng 4 SHINGLE_LENGTH 8192 0 (sample_prng.srand 1) (sample_memory 11 22)
        (bytes "a b ") (bytes "c d ")).set_2_len = 2
      ∧ (option_2 sample_prng 4 SHINGLE_LENGTH 8192 0 (sample_prng.srand 1) (sample_memory 11 22)
        (bytes "a b ") (bytes "c d ")).f2.stored_shingles = 1
      ∧ (option_2 sample_prng 4 SHINGLE_LENGTH 8192 0 (sample_prng.srand 1) (sample_memory 11 22)
        (bytes "a b ") (bytes "c d ")).f2.shingles 1 = 22 := by
  decide

/-- C12 fails on the code. For the tokens `a`, `b`, when the byte that follows the
two bytes allocated for the shingle is `A` (65) and not NUL, the stored
fingerprint is the hash of the three bytes `abA`, not the hash of the two bytes
of the shingle `ab`. -/
theorem stored_fingerprint_overreads :
    (shingle_loop SHINGLE_LENGTH 8192 0 (fun _ => [65])
        (Shingler.start 8192 (fun _ => []) (fun _ => 0) (fun _ => 0))
        [bytes "a", bytes "b"]).shingles 0 = MurmurHash64A (bytes "abA") 3 0
      ∧ MurmurHash64A (bytes "abA") 3 0 ≠ MurmurHash64A (bytes "ab") 2 0
      ∧ emitted_shingles SHINGLE_LENGTH 8192 0 (fun _ => [65])
          (Shingler.start 8192 (fun _ => []) (fun _ => 0) (fun _ => 0))
          [bytes "a", bytes "b"] = [bytes "ab"] := by
  decide

/-- C17 fails on the code. The identical documents `a b ` and `a b ` under seed 0
score 1 in `option_2` when the unwritten elements of the two fingerprint arrays
hold 0 and 0, and 1/4 in a pairing of `option_3` when they hold 0 and 1. -/
theorem modes_disagree :
    (option_2 sample_prng 4 SHINGLE_LENGTH 8192 0 (sample_prng.srand 1) (sample_memory 0 0)
        (bytes "a b ") (bytes "a b ")).resemblance = 1
      ∧ ∃ c, (option_3 sample_prng 4 SHINGLE_LENGTH 8192 0 (sample_prng.srand 1)
            (fun _ => sample_memory 0 1) (bytes "x") (bytes "a b ")
            [(bytes "y", bytes "a b ")]).1 = [some c]
          ∧ c.resemblance = 1 / 4 := by
  have h1 : final_matching_mins sample_prng 4 (sample_prng.srand 1) 0 0
      (compare_files sample_prng 4 SHINGLE_LENGTH 8192 0 (sample_prng.srand 1)
        (sample_memory 0 0) (bytes "a b ") (bytes "a b ")).set_1_len
      (compare_files sample_prng 4 SHINGLE_LENGTH 8192 0 (sample_prng.srand 1)
        (sample_memory 0 0) (bytes "a b ") (bytes "a b ")).f1.shingles
      (compare_files sample_prng 4 SHINGLE_LENGTH 8192 0 (sample_prng.srand 1)
        (sample_memory 0 0) (bytes "a b ") (bytes "a b ")).set_2_len
      (compare_files sample_prng 4 SHINGLE_LENGTH 8192 0 (sample_prng.srand 1)
        (sample_memory 0 0) (bytes "a b ") (bytes "a b ")).f2.shingles = 4 := by
    decide
  have h2 : final_matching_mins sample_prng 4 (sample_prng.srand 1) 0 0
      (compare_files sample_prng 4 SHINGLE_LENGTH 8192 0 (sample_prng.srand 1)
        (sample_memory 0 1) (bytes "a b ") (bytes "a b ")).set_1_len
      (compare_files sample_prng 4 SHINGLE_LENGTH 8192 0 (sample_prng.srand 1)
        (sample_memory 0 1) (bytes "a b ") (bytes "a b ")).f1.shingles
      (compare_files sample_prng 4 SHINGLE_LENGTH 8192 0 (sample_prng.srand 1)
        (sample_memory 0 1) (bytes "a b ") (bytes "a b ")).set_2_len
      (compare_files sample_prng 4 SHINGLE_LENGTH 8192 0 (sample_prng.srand 1)
        (sample_memory 0 1) (bytes "a b ") (bytes "a b ")).f2.shingles = 1 := by
    decide
  refine ⟨?_, compare_files sample_prng 4 SHINGLE_LENGTH 8192 0 (sample_prng.srand 1)
    (sample_memory 0 1) (bytes "a b ") (bytes "a b "), ?_, ?_⟩
  · unfold option_2
    rw [compare_files_resemblance]
    have e : (sample_memory 0 0).u1 = 0 ∧ (sample_memory 0 0).u2 = 0 := ⟨rfl, rfl⟩
    rw [e.1, e.2, h1]
    norm_num
  · have hne : ¬ (bytes "x" = bytes "y") := by decide
    simp [option_3, option_3_loop, List.range_succ, hne]
  · rw [compare_files_resemblance]
    have e : (sample_memory 0 1).u1 = 0 ∧ (sample_memory 0 1).u2 = 0 := ⟨rfl, rfl⟩
    rw [e.1, e.2, h2]
    norm_num

theorem words_fuel_no_nul :
    ∀ (fuel : Nat) (file : List Byte), ∀ t ∈ words_fuel fuel file, (0 : Byte) ∉ t := by
  intro fuel
  induction fuel with
  | zero => intro file t ht; simp [words_fuel] at ht
  | succ fuel ih =>
    intro file t ht
    rw [words_fuel] at ht
    cases hg : get_next_word file with
    | mk r rest =>
      rw [hg] at ht
      cases r with
      | none => simp at ht
      | some w =>
        simp only [List.mem_cons] at ht
        rcases ht with rfl | ht
        · exact get_next_word_no_nul file t rest hg
        · exact ih rest t ht

theorem emitted_eq_windows (S BUFSIZ seed : Nat) (heap : Nat → List Byte)
    (circle0 : Nat → List Byte) (lens0 mem0 : Nat → Nat) (tokens : List (List Byte))
    (hS : 0 < S) (hnul : ∀ t ∈ tokens, (0 : Byte) ∉ t) :
    emitted_shingles S BUFSIZ seed heap (Shingler.start BUFSIZ circle0 lens0 mem0) tokens
      = (List.range (tokens.length + 1 - S)).map (window S tokens) := by
  rw [emitted_holds S BUFSIZ seed heap tokens _ [] (holds_start S BUFSIZ circle0 lens0 mem0)
    (by simpa using hnul)]
  simp only [List.length_nil, List.nil_append]
  exact flatten_windows S hS (window S tokens) tokens.length

/-- What the shingling loop stores for a stream: entry `k` of the fingerprint array
is the hash, under `seed`, of the memory starting at the `k`-th window of the
tokens. -/
theorem shingle_loop_fingerprints (S BUFSIZ seed : Nat) (heap : Nat → List Byte)
    (circle0 : Nat → List Byte) (lens0 mem0 : Nat → Nat) (tokens : List (List Byte))
    (hS : 0 < S) (hnul : ∀ t ∈ tokens, (0 : Byte) ∉ t) (k : Nat)
    (hk : k < tokens.length + 1 - S) :
    (shingle_loop S BUFSIZ seed heap (Shingler.start BUFSIZ circle0 lens0 mem0) tokens).shingles k
      = MurmurHash64A (window S tokens k ++ heap (S + k))
          (strlen (window S tokens k ++ heap (S + k))) seed := by
  obtain ⟨_, _, g3, g4, _⟩ := shingle_loop_general S BUFSIZ seed heap tokens
    (Shingler.start BUFSIZ circle0 lens0 mem0)
  have hc : (Shingler.start BUFSIZ circle0 lens0 mem0).shingles_count = 0 := rfl
  have hs : (Shingler.start BUFSIZ circle0 lens0 mem0).stored_shingles = 0 := rfl
  rw [hc] at g3 g4
  rw [hs] at g4
  have hmax : max (0 + 1) S = S := by omega
  rw [hmax] at g3 g4
  have h := g4 k (by omega)
  rw [Nat.zero_add, emitted_eq_windows S BUFSIZ seed heap circle0 lens0 mem0 tokens hS hnul] at h
  rw [h]
  have hw : ((List.range (tokens.length + 1 - S)).map (window S tokens)).getD k []
      = window S tokens k := by
    simp [List.getD_eq_getElem?_getD, List.getElem?_range hk]
  rw [hw]

theorem compare_files_hashed_with (G : Prng) (P S BUFSIZ seed : Nat) (rng : G.State)
    (mem : Memory) (file_1 file_2 : List Byte) (hS : 0 < S) :
    (compare_files G P S BUFSIZ seed rng mem file_1 file_2).hashed_with S mem file_1 file_2
      seed := by
  constructor
  · intro k hk
    exact shingle_loop_fingerprints S BUFSIZ seed mem.heap_1 mem.circle0 mem.lens0 mem.f1_mem
      (words file_1) hS (words_fuel_no_nul _ file_1) k hk
  · intro k hk
    exact shingle_loop_fingerprints S BUFSIZ seed mem.heap_2 _ _ mem.f2_mem
      (words file_2) hS (words_fuel_no_nul _ file_2) k hk

theorem option_1_succ (G : Prng) (P S BUFSIZ : Nat) (rng : G.State) (mems : Nat → Memory)
    (file_1 file_2 : List Byte) (n : Nat) :
    option_1 G P S BUFSIZ (n + 1) rng mems file_1 file_2
      = ((option_1 G P S BUFSIZ n rng mems file_1 file_2).1
          ++ [option_1_run G P S BUFSIZ (option_1 G P S BUFSIZ n rng mems file_1 file_2).2
                (mems n) file_1 file_2],
        (option_1_run G P S BUFSIZ (option_1 G P S BUFSIZ n rng mems file_1 file_2).2
                (mems n) file_1 file_2).2.rng) := by
  unfold option_1
  rw [List.range_succ, List.foldl_append]
  rfl

theorem option_1_runs (G : Prng) (P S BUFSIZ : Nat) (rng : G.State) (mems : Nat → Memory)
    (file_1 file_2 : List Byte) (n : Nat) :
    (option_1 G P S BUFSIZ n rng mems file_1 file_2).1.length = n
      ∧ ∀ a, a < n → (option_1 G P S BUFSIZ n rng mems file_1 file_2).1[a]?
          = some (option_1_run G P S BUFSIZ
              (option_1 G P S BUFSIZ a rng mems file_1 file_2).2 (mems a) file_1 file_2) := by
  induction n with
  | zero => exact ⟨rfl, fun a ha => absurd ha (Nat.not_lt_zero a)⟩
  | succ n ih =>
    rw [option_1_succ]
    obtain ⟨hlen, hget⟩ := ih
    refine ⟨by simp [hlen], ?_⟩
    intro a ha
    rcases Nat.lt_or_ge a n with h | h
    · rw [List.getElem?_append_left (by rw [hlen]; exact h)]
      exact hget a h
    · have : a = n := by omega
      subst this
      rw [List.getElem?_append_right (by rw [hlen]), hlen]
      simp

theorem option_3_loop_succ (G : Prng) (P S BUFSIZ seed : Nat) (rng : G.State)
    (mems : Nat → Memory) (file_a file_1 : List Byte) (files : List (List Byte × List Byte))
    (n : Nat) :
    option_3_loop G P S BUFSIZ seed rng mems file_a file_1 files (n + 1)
      = if file_a = (files.getD n ([], [])).1 then
          ((option_3_loop G P S BUFSIZ seed rng mems file_a file_1 files n).1 ++ [none],
            (option_3_loop G P S BUFSIZ seed rng mems file_a file_1 files n).2)
        else
          ((option_3_loop G P S BUFSIZ seed rng mems file_a file_1 files n).1
            ++ [some (compare_files G P S BUFSIZ seed
                (option_3_loop G P S BUFSIZ seed rng mems file_a file_1 files n).2 (mems n)
                file_1 (files.getD n ([], [])).2)],
            (compare_files G P S BUFSIZ seed
                (option_3_loop G P S BUFSIZ seed rng mems file_a file_1 files n).2 (mems n)
                file_1 (files.getD n ([], [])).2).rng) := by
  unfold option_3_loop
  rw [List.range_succ, List.foldl_append]
  rfl

theorem option_3_pairings (G : Prng) (P S BUFSIZ seed : Nat) (rng : G.State)
    (mems : Nat → Memory) (file_a file_1 : List Byte) (files : List (List Byte × List Byte))
    (n : Nat) :
    (option_3_loop G P S BUFSIZ seed rng mems file_a file_1 files n).1.length = n
      ∧ ∀ i, i < n → (option_3_loop G P S BUFSIZ seed rng mems file_a file_1 files n).1[i]?
          = some (if file_a = (files.getD i ([], [])).1 then none
              else some (compare_files G P S BUFSIZ seed
                (option_3_loop G P S BUFSIZ seed rng mems file_a file_1 files i).2 (mems i)
                file_1 (files.getD i ([], [])).2)) := by
  induction n with
  | zero => exact ⟨rfl, fun a ha => absurd ha (Nat.not_lt_zero a)⟩
  | succ n ih =>
    obtain ⟨hlen, hget⟩ := ih
    rw [option_3_loop_succ]
    constructor
    · split <;> simp [hlen]
    · intro i hi
      rcases Nat.lt_or_ge i n with h | h
      · have := hget i h
        split
        · rw [List.getElem?_append_left (by rw [hlen]; exact h)]
          exact this
        · rw [List.getElem?_append_left (by rw [hlen]; exact h)]
          exact this
      · have hin : i = n := by omega
        subst hin
        split
        · rw [List.getElem?_append_right (by rw [hlen]), hlen]
          simp
        · rw [List.getElem?_append_right (by rw [hlen]), hlen]
          simp

/-- C15. Within one comparison every fingerprint of document 1 and every
fingerprint of document 2 is computed with the same seed value: in the single
comparison (`option_2`) and in every pairing of the batch mode (`option_3`) it
is the value of the global `seed`, in a run of the averaging mode (`option_1`)
it is the value that run drew. -/
theorem same_seed_in_comparison (G : Prng) (P S BUFSIZ RUNS seed : Nat) (rng : G.State)
    (mem : Memory) (mems : Nat → Memory) (file_a file_1 file_2 : List Byte)
    (files : List (List Byte × List Byte)) (hS : 0 < S) :
    (option_2 G P S BUFSIZ seed rng mem file_1 file_2).hashed_with S mem file_1 file_2 seed
      ∧ (∀ (a : Nat) (run : Nat × Comparison G),
          (option_1 G P S BUFSIZ RUNS rng mems file_1 file_2).1[a]? = some run →
          run.2.hashed_with S (mems a) file_1 file_2 run.1)
      ∧ ∀ (i : Nat) (c : Comparison G),
          (option_3 G P S BUFSIZ seed rng mems file_a file_1 files).1[i]? = some (some c) →
          c.hashed_with S (mems i) file_1 (files.getD i ([], [])).2 seed := by
  refine ⟨compare_files_hashed_with G P S BUFSIZ seed rng mem file_1 file_2 hS, ?_, ?_⟩
  · intro a run hrun
    obtain ⟨hlen, hget⟩ := option_1_runs G P S BUFSIZ rng mems file_1 file_2 RUNS
    have ha : a < RUNS := by
      rw [← hlen]
      exact (List.getElem?_eq_some.mp hrun).1
    rw [hget a ha] at hrun
    cases hrun
    exact compare_files_hashed_with G P S BUFSIZ _ _ (mems a) file_1 file_2 hS
  · intro i c hc
    obtain ⟨hlen, hget⟩ := option_3_pairings G P S BUFSIZ seed rng mems file_a file_1 files
      files.length
    unfold option_3 at hc
    have hi : i < files.length := by
      rw [← hlen]
      exact (List.getElem?_eq_some.mp hc).1
    rw [hget i hi] at hc
    split at hc
    · simp at hc
    · simp only [Option.some.injEq] at hc
      rw [← hc]
      exact compare_files_hashed_with G P S BUFSIZ seed _ (mems i) file_1 _ hS

theorem same_seed_in_comparison_witness :
    (option_2 sample_prng PERMUTATIONS SHINGLE_LENGTH 8192 5 (sample_prng.srand 1)
        (sample_memory 0 0) (bytes "a b c ") (bytes "b c d ")).hashed_with SHINGLE_LENGTH
      (sample_memory 0 0) (bytes "a b c ") (bytes "b c d ") 5 :=
  (same_seed_in_comparison sample_prng PERMUTATIONS SHINGLE_LENGTH 8192 5 5 (sample_prng.srand 1)
    (sample_memory 0 0) (fun _ => sample_memory 0 0) (bytes "x") (bytes "a b c ")
    (bytes "b c d ") [] (by decide)).1

/-- C16 fails on the code. Two executions of the averaging mode on the same
documents, from the same generator state, that differ only in one element
permuted during the first run (element 1 of the second array: 7 in one
execution, 8 in the other) draw different seeds for the second run. -/
theorem next_seed_depends_on_previous_run :
    (option_1 sample_prng 4 SHINGLE_LENGTH 8192 2 (sample_prng.srand 1)
        (fun _ => sample_memory 0 7) (bytes "a b ") (bytes "a b ")).1.map (fun run => run.1)
        = [16838, 32531]
      ∧ (option_1 sample_prng 4 SHINGLE_LENGTH 8192 2 (sample_prng.srand 1)
        (fun _ => sample_memory 0 8) (bytes "a b ") (bytes "a b ")).1.map (fun run => run.1)
        = [16838, 27316] := by
  decide

/-- C16 as amended. In the averaging mode the seed drawn at the start of a run is
the next output of the process-wide generator in the state that the previous
run left: when the previous run handed a non-zero `set_2_len` to
`permute_and_compare`, it is output number `PERMUTATIONS` of the generator
seeded with the last element of set 2 permuted in that run, and depends on
the previous run through that element only. -/
theorem next_seed_from_last_permuted (G : Prng) (P S BUFSIZ RUNS : Nat) (rng : G.State)
    (mems : Nat → Memory) (file_1 file_2 : List Byte) (a : Nat)
    (run_a run_b : Nat × Comparison G)
    (ha : (option_1 G P S BUFSIZ RUNS rng mems file_1 file_2).1[a]? = some run_a)
    (hb : (option_1 G P S BUFSIZ RUNS rng mems file_1 file_2).1[a + 1]? = some run_b)
    (hlen : 0 < run_a.2.set_2_len) :
    run_b.1
      = nth_rand G (G.srand (run_a.2.f2.shingles (run_a.2.set_2_len - 1) % 2 ^ 32)) P := by
  obtain ⟨hl, hget⟩ := option_1_runs G P S BUFSIZ rng mems file_1 file_2 RUNS
  have hb1 : a + 1 < RUNS := by
    rw [← hl]
    exact (List.getElem?_eq_some.mp hb).1
  rw [hget a (by omega)] at ha
  rw [hget (a + 1) hb1, option_1_succ] at hb
  cases ha
  cases hb
  simp only [option_1_run, compare_files, permute_and_compare] at hlen ⊢
  rw [permute_set_snd G P _ _ _ hlen]
  rfl

theorem next_seed_from_last_permuted_witness :
    (option_1_run sample_prng 4 SHINGLE_LENGTH 8192
        (option_1 sample_prng 4 SHINGLE_LENGTH 8192 (0 + 1) (sample_prng.srand 1)
          (fun _ => sample_memory 0 7) (bytes "a b ") (bytes "a b ")).2
        (sample_memory 0 7) (bytes "a b ") (bytes "a b ")).1
      = nth_rand sample_prng
          (sample_prng.srand
            ((option_1_run sample_prng 4 SHINGLE_LENGTH 8192
                (option_1 sample_prng 4 SHINGLE_LENGTH 8192 0 (sample_prng.srand 1)
                  (fun _ => sample_memory 0 7) (bytes "a b ") (bytes "a b ")).2
                (sample_memory 0 7) (bytes "a b ") (bytes "a b ")).2.f2.shingles
              ((option_1_run sample_prng 4 SHINGLE_LENGTH 8192
                (option_1 sample_prng 4 SHINGLE_LENGTH 8192 0 (sample_prng.srand 1)
                  (fun _ => sample_memory 0 7) (bytes "a b ") (bytes "a b ")).2
                (sample_memory 0 7) (bytes "a b ") (bytes "a b ")).2.set_2_len - 1) % 2 ^ 32))
          4 :=
  next_seed_from_last_permuted sample_prng 4 SHINGLE_LENGTH 8192 2 (sample_prng.srand 1)
    (fun _ => sample_memory 0 7) (bytes "a b ") (bytes "a b ") 0 _ _
    ((option_1_runs sample_prng 4 SHINGLE_LENGTH 8192 (sample_prng.srand 1)
      (fun _ => sample_memory 0 7) (bytes "a b ") (bytes "a b ") 2).2 0 (by decide))
    ((option_1_runs sample_prng 4 SHINGLE_LENGTH 8192 (sample_prng.srand 1)
      (fun _ => sample_memory 0 7) (bytes "a b ") (bytes "a b ") 2).2 (0 + 1) (by decide))
    (by decide)

theorem final_matching_mins_rng (G : Prng) (P : Nat) (rng rng2 : G.State) (u1 u2 : Nat)
    (n1 : Nat) (set_1 : Nat → Nat) (n2 : Nat) (set_2 : Nat → Nat) :
    final_matching_mins G P rng u1 u2 n1 set_1 n2 set_2
      = final_matching_mins G P rng2 u1 u2 n1 set_1 n2 set_2 := by
  simp only [final_matching_mins, permute_set_fst]

/-- With the same indeterminate memory, the score of a comparison does not depend on
the generator state it starts from: the three modes then agree on a pair of
documents under a given seed. -/
theorem compare_files_resemblance_rng (G : Prng) (P S BUFSIZ seed : Nat) (rng rng2 : G.State)
    (mem : Memory) (file_1 file_2 : List Byte) :
    (compare_files G P S BUFSIZ seed rng mem file_1 file_2).resemblance
      = (compare_files G P S BUFSIZ seed rng2 mem file_1 file_2).resemblance := by
  rw [compare_files_resemblance, compare_files_resemblance]
  exact congrArg (fun k : Nat => (k : ℚ) / (P : ℚ)) (final_matching_mins_rng G P rng rng2 _ _ _ _ _ _)

theorem window_no_nul (S : Nat) (tokens : List (List Byte)) (k : Nat)
    (hnul : ∀ t ∈ tokens, (0 : Byte) ∉ t) : (0 : Byte) ∉ window S tokens k := by
  unfold window
  intro h
  obtain ⟨t, ht, h0⟩ := List.mem_flatten.mp h
  exact hnul t (List.mem_of_mem_drop (List.mem_of_mem_take ht)) h0

/-- When the byte that follows every shingle's allocation is NUL, entry `k` of the
fingerprint array is the hash of exactly the bytes of the `k`-th window. -/
theorem shingle_loop_fingerprints_clean (S BUFSIZ seed : Nat)
    (circle0 : Nat → List Byte) (lens0 mem0 : Nat → Nat) (tokens : List (List Byte))
    (hS : 0 < S) (hnul : ∀ t ∈ tokens, (0 : Byte) ∉ t) (k : Nat)
    (hk : k < tokens.length + 1 - S) :
    (shingle_loop S BUFSIZ seed (fun _ => []) (Shingler.start BUFSIZ circle0 lens0 mem0)
        tokens).shingles k
      = MurmurHash64A (window S tokens k) (window S tokens k).length seed := by
  rw [shingle_loop_fingerprints S BUFSIZ seed (fun _ => []) circle0 lens0 mem0 tokens hS hnul k hk,
    List.append_nil, strlen_of_no_nul _ (window_no_nul S tokens k hnul)]

/-- C13 fails on the code. With an empty first set `permute_and_compare` raises
no error: it returns a score, computed from the start value of the
uninitialised `set_1_min` (score 0 for the value 0, score 1 for the value
19564, the only row value of fingerprint 7).  And for the single-word
documents `a ` and `b `, for which no fingerprint is stored, `option_2`
reports the score 1. -/
theorem permute_and_compare_empty_no_error :
    (permute_and_compare sample_prng 1 (sample_prng.srand 1) 0 0
        0 (array_of []) 1 (array_of [7])).1 = 0
      ∧ (permute_and_compare sample_prng 1 (sample_prng.srand 1) 19564 0
        0 (array_of []) 1 (array_of [7])).1 = 1
      ∧ (option_2 sample_prng 4 SHINGLE_LENGTH 8192 0 (sample_prng.srand 1)
          (sample_memory 0 0) (bytes "a ") (bytes "b ")).f1.stored_shingles = 0
      ∧ (option_2 sample_prng 4 SHINGLE_LENGTH 8192 0 (sample_prng.srand 1)
          (sample_memory 0 0) (bytes "a ") (bytes "b ")).f2.stored_shingles = 0
      ∧ (option_2 sample_prng 4 SHINGLE_LENGTH 8192 0 (sample_prng.srand 1)
          (sample_memory 0 0) (bytes "a ") (bytes "b ")).resemblance = 1 := by
  have h0 : final_matching_mins sample_prng 1 (sample_prng.srand 1) 0 0
      0 (array_of []) 1 (array_of [7]) = 0 := by decide
  have h1 : final_matching_mins sample_prng 1 (sample_prng.srand 1) 19564 0
      0 (array_of []) 1 (array_of [7]) = 1 := by decide
  have h2 : final_matching_mins sample_prng 4 (sample_prng.srand 1) 0 0
      (compare_files sample_prng 4 SHINGLE_LENGTH 8192 0 (sample_prng.srand 1)
        (sample_memory 0 0) (bytes "a ") (bytes "b ")).set_1_len
      (compare_files sample_prng 4 SHINGLE_LENGTH 8192 0 (sample_prng.srand 1)
        (sample_memory 0 0) (bytes "a ") (bytes "b ")).f1.shingles
      (compare_files sample_prng 4 SHINGLE_LENGTH 8192 0 (sample_prng.srand 1)
        (sample_memory 0 0) (bytes "a ") (bytes "b ")).set_2_len
      (compare_files sample_prng 4 SHINGLE_LENGTH 8192 0 (sample_prng.srand 1)
        (sample_memory 0 0) (bytes "a ") (bytes "b ")).f2.shingles = 4 := by
    decide
  refine ⟨?_, ?_, by decide, by decide, ?_⟩
  · rw [permute_and_compare_fst, h0]
    norm_num
  · rw [permute_and_compare_fst, h1]
    norm_num
  · unfold option_2
    rw [compare_files_resemblance]
    have e : (sample_memory 0 0).u1 = 0 ∧ (sample_memory 0 0).u2 = 0 := ⟨rfl, rfl⟩
    rw [e.1, e.2, h2]
    norm_num

/-! ## The score as a function of the fingerprint values -/

theorem column_min_same_values (G : Prng) (P : Nat) (nA : Nat) (A : Nat → Nat) (nA2 : Nat)
    (A2 : Nat → Nat) (j u w : Nat) (hA : 0 < nA) (hA2 : 0 < nA2)
    (hset : ∀ v, (∃ i, i < nA ∧ A i = v) ↔ (∃ i, i < nA2 ∧ A2 i = v)) :
    column_min (permutation_matrix G P nA A) nA j u
      = column_min (permutation_matrix G P nA2 A2) nA2 j w := by
  obtain ⟨h1le, a, ha, h1eq⟩ := column_min_row_values G P A nA j u hA
  obtain ⟨h2le, b, hb, h2eq⟩ := column_min_row_values G P A2 nA2 j w hA2
  obtain ⟨a2, ha2, hav⟩ := (hset (A a)).mp ⟨a, ha, rfl⟩
  obtain ⟨b1, hb1, hbv⟩ := (hset (A2 b)).mpr ⟨b, hb, rfl⟩
  apply le_antisymm
  · rw [h2eq, ← hbv]
    exact h1le b1 hb1
  · rw [h1eq, ← hav]
    exact h2le a2 ha2

theorem matching_columns_same_values (G : Prng) (P : Nat) (nA : Nat) (A : Nat → Nat) (nA2 : Nat)
    (A2 : Nat → Nat) (nB : Nat) (B : Nat → Nat) (hA : 0 < nA) (hA2 : 0 < nA2)
    (hset : ∀ v, (∃ i, i < nA ∧ A i = v) ↔ (∃ i, i < nA2 ∧ A2 i = v)) :
    matching_columns G P nA A nB B = matching_columns G P nA2 A2 nB B
      ∧ matching_columns G P nB B nA A = matching_columns G P nB B nA2 A2 := by
  unfold matching_columns
  constructor
  · congr 1
    apply Finset.filter_congr
    intro j _
    rw [column_min_same_values G P nA A nA2 A2 j 0 0 hA hA2 hset]
  · congr 1
    apply Finset.filter_congr
    intro j _
    rw [column_min_same_values G P nA A nA2 A2 j 0 0 hA hA2 hset]

/-- C21. The score of `permute_and_compare` depends only on the sets of distinct
fingerprint values: for non-empty sequences `A`, `A2` that contain the same
values (in any order, with any multiplicities) and every non-empty `B`, the
score of `A` against `B` equals the score of `A2` against `B`, and likewise in
the second argument. -/
theorem score_depends_on_value_set (G : Prng) (P : Nat) (rng : G.State) (u1 u2 : Nat)
    (nA : Nat) (A : Nat → Nat) (nA2 : Nat) (A2 : Nat → Nat) (nB : Nat) (B : Nat → Nat)
    (hA : 0 < nA) (hA2 : 0 < nA2) (hB : 0 < nB)
    (hset : ∀ v, (∃ i, i < nA ∧ A i = v) ↔ (∃ i, i < nA2 ∧ A2 i = v)) :
    (permute_and_compare G P rng u1 u2 nA A nB B).1
        = (permute_and_compare G P rng u1 u2 nA2 A2 nB B).1
      ∧ (permute_and_compare G P rng u1 u2 nB B nA A).1
        = (permute_and_compare G P rng u1 u2 nB B nA2 A2).1 := by
  obtain ⟨h1, h2⟩ := matching_columns_same_values G P nA A nA2 A2 nB B hA hA2 hset
  rw [score_eq G P rng u1 u2 nA A nB B hA hB, score_eq G P rng u1 u2 nA2 A2 nB B hA2 hB,
    score_eq G P rng u1 u2 nB B nA A hB hA, score_eq G P rng u1 u2 nB B nA2 A2 hB hA2, h1, h2]
  exact ⟨rfl, rfl⟩

theorem score_depends_on_value_set_witness :
    (permute_and_compare sample_prng PERMUTATIONS (sample_prng.srand 1) 0 0
        3 (array_of [7, 9, 7]) 2 (array_of [8, 9])).1
      = (permute_and_compare sample_prng PERMUTATIONS (sample_prng.srand 1) 0 0
        2 (array_of [9, 7]) 2 (array_of [8, 9])).1 :=
  (score_depends_on_value_set sample_prng PERMUTATIONS (sample_prng.srand 1) 0 0
    3 (array_of [7, 9, 7]) 2 (array_of [9, 7]) 2 (array_of [8, 9])
    (by decide) (by decide) (by decide)
    (by
      intro v
      constructor
      · rintro ⟨i, hi, rfl⟩
        interval_cases i
        · exact ⟨1, by decide, rfl⟩
        · exact ⟨0, by decide, rfl⟩
        · exact ⟨1, by decide, rfl⟩
      · rintro ⟨i, hi, rfl⟩
        interval_cases i
        · exact ⟨1, by decide, rfl⟩
        · exact ⟨0, by decide, rfl⟩)).1

theorem permutation_matrix_congr (G : Prng) (P n : Nat) (set set2 : Nat → Nat)
    (h : ∀ i, i < n → set i % 2 ^ 32 = set2 i % 2 ^ 32) :
    permutation_matrix G P n set = permutation_matrix G P n set2 := by
  unfold permutation_matrix
  apply List.map_congr_left
  intro i hi
  rw [h i (List.mem_range.mp hi)]

theorem final_matching_mins_congr (G : Prng) (P : Nat) (rng : G.State) (u1 u2 : Nat)
    (n1 : Nat) (set_1 s1 : Nat → Nat) (n2 : Nat) (set_2 s2 : Nat → Nat)
    (h1 : ∀ i, i < n1 → set_1 i % 2 ^ 32 = s1 i % 2 ^ 32)
    (h2 : ∀ i, i < n2 → set_2 i % 2 ^ 32 = s2 i % 2 ^ 32) :
    final_matching_mins G P rng u1 u2 n1 set_1 n2 set_2
      = final_matching_mins G P rng u1 u2 n1 s1 n2 s2 := by
  simp only [final_matching_mins, permute_set_fst]
  rw [permutation_matrix_congr G P n1 set_1 s1 h1, permutation_matrix_congr G P n2 set_2 s2 h2]

theorem update_congr_mod (set : Nat → Nat) (i w : Nat) (h : set i % 2 ^ 32 = w % 2 ^ 32) :
    ∀ k, set k % 2 ^ 32 = Function.update set i w k % 2 ^ 32 := by
  intro k
  by_cases hk : k = i
  · subst hk
    rw [Function.update_same, h]
  · rw [Function.update_noteq hk]

/-- C22. A permutation row depends only on the low 32 bits of its fingerprint
(`srand` takes an `unsigned int`): two fingerprints that are congruent modulo
`2 ^ 32` yield identical rows, and replacing one by the other at any position
of either set leaves the score of `permute_and_compare` unchanged. -/
theorem score_depends_on_low_32_bits (G : Prng) (P : Nat) (rng : G.State) (u1 u2 : Nat)
    (n1 : Nat) (set_1 : Nat → Nat) (n2 : Nat) (set_2 : Nat → Nat) (i : Nat) (v w : Nat)
    (hvw : v % 2 ^ 32 = w % 2 ^ 32) :
    (∀ j, row_value G P v j = row_value G P w j)
      ∧ (∀ (rngA rngB : G.State) (nA nB : Nat) (A B : Nat → Nat) (a b : Nat), a < nA → b < nB →
          A a = v → B b = w →
          (permute_set G P nA A rngA).1.getD a [] = (permute_set G P nB B rngB).1.getD b [])
      ∧ (set_1 i = v →
          (permute_and_compare G P rng u1 u2 n1 (Function.update set_1 i w) n2 set_2).1
            = (permute_and_compare G P rng u1 u2 n1 set_1 n2 set_2).1)
      ∧ (set_2 i = v →
          (permute_and_compare G P rng u1 u2 n1 set_1 n2 (Function.update set_2 i w)).1
            = (permute_and_compare G P rng u1 u2 n1 set_1 n2 set_2).1) := by
  refine ⟨?_, ?_, ?_, ?_⟩
  · intro j
    unfold row_value
    rw [hvw]
  · intro rngA rngB nA nB A B a b ha hb hA hB
    rw [permute_set_fst, permute_set_fst, permutation_matrix_row G P A nA a ha,
      permutation_matrix_row G P B nB b hb, hA, hB, hvw]
  · intro hv
    rw [permute_and_compare_fst, permute_and_compare_fst]
    rw [final_matching_mins_congr G P rng u1 u2 n1 set_1 (Function.update set_1 i w) n2 set_2
      set_2 (fun k _ => update_congr_mod set_1 i w (by rw [hv, hvw]) k) (fun _ _ => rfl)]
  · intro hv
    rw [permute_and_compare_fst, permute_and_compare_fst]
    rw [final_matching_mins_congr G P rng u1 u2 n1 set_1 set_1 n2 set_2
      (Function.update set_2 i w) (fun _ _ => rfl)
      (fun k _ => update_congr_mod set_2 i w (by rw [hv, hvw]) k)]

theorem score_depends_on_low_32_bits_witness :
    (permute_and_compare sample_prng PERMUTATIONS (sample_prng.srand 1) 0 0
        2 (Function.update (array_of [7, 9]) 0 (7 + 2 ^ 32)) 2 (array_of [8, 9])).1
      = (permute_and_compare sample_prng PERMUTATIONS (sample_prng.srand 1) 0 0
        2 (array_of [7, 9]) 2 (array_of [8, 9])).1 :=
  (score_depends_on_low_32_bits sample_prng PERMUTATIONS (sample_prng.srand 1) 0 0
    2 (array_of [7, 9]) 2 (array_of [8, 9]) 0 7 (7 + 2 ^ 32) (by decide)).2.2.1 rfl

/-! ## The capacity of the fingerprint array -/

theorem step_shingles_sz (S BUFSIZ seed : Nat) (heap : Nat → List Byte) (st : Shingler)
    (w : List Byte) (hB : S ≤ BUFSIZ)
    (hsz : st.shingles_sz = BUFSIZ * 8 * (1 + st.shingles_count / BUFSIZ)) :
    (st.step S BUFSIZ seed heap w).shingles_count = st.shingles_count + 1
      ∧ (st.step S BUFSIZ seed heap w).shingles_sz
          = BUFSIZ * 8 * (1 + (st.shingles_count + 1) / BUFSIZ) := by
  by_cases hle : S ≤ st.shingles_count + 1
  · have hsh : (st.add_word S w).shingle S
        = some (concatenate_circle S (st.add_word S w).circle_index (st.add_word S w).circle
            (st.add_word S w).circle_lens) := by
      simp [Shingler.shingle, Shingler.add_word, hle]
    have hstep : st.step S BUFSIZ seed heap w
        = (st.add_word S w).store BUFSIZ seed (heap (st.shingles_count + 1))
            (concatenate_circle S (st.add_word S w).circle_index (st.add_word S w).circle
              (st.add_word S w).circle_lens) := by
      simp only [Shingler.step, hsh]
      rfl
    rw [hstep]
    simp only [Shingler.store, Shingler.add_word, true_and]
    rw [Nat.succ_div, hsz]
    by_cases hm : (st.shingles_count + 1) % BUFSIZ = 0
    · rw [if_pos ⟨hm, Nat.succ_ne_zero _⟩, if_pos (Nat.dvd_of_mod_eq_zero hm)]
      ring
    · rw [if_neg (fun h => hm h.1), if_neg (fun h => hm (Nat.mod_eq_zero_of_dvd h))]
      rfl
  · have hsh : (st.add_word S w).shingle S = none := by
      simp [Shingler.shingle, Shingler.add_word, hle]
    have hstep : st.step S BUFSIZ seed heap w = st.add_word S w := by
      simp only [Shingler.step, hsh]
    rw [hstep]
    simp only [Shingler.add_word, true_and]
    rw [hsz, Nat.div_eq_of_lt (by omega : st.shingles_count < BUFSIZ),
      Nat.div_eq_of_lt (by omega : st.shingles_count + 1 < BUFSIZ)]

theorem shingle_loop_shingles_sz (S BUFSIZ seed : Nat) (heap : Nat → List Byte)
    (hB : S ≤ BUFSIZ) :
    ∀ (words : List (List Byte)) (st : Shingler),
      st.shingles_sz = BUFSIZ * 8 * (1 + st.shingles_count / BUFSIZ) →
      (shingle_loop S BUFSIZ seed heap st words).shingles_count
          = st.shingles_count + words.length
        ∧ (shingle_loop S BUFSIZ seed heap st words).shingles_sz
          = BUFSIZ * 8 * (1 + (st.shingles_count + words.length) / BUFSIZ) := by
  intro words
  induction words with
  | nil => intro st hsz; exact ⟨rfl, hsz⟩
  | cons w ws ih =>
    intro st hsz
    obtain ⟨hc, hs⟩ := step_shingles_sz S BUFSIZ seed heap st w hB hsz
    have hloop : shingle_loop S BUFSIZ seed heap st (w :: ws)
        = shingle_loop S BUFSIZ seed heap (st.step S BUFSIZ seed heap w) ws := rfl
    rw [← hc] at hs
    obtain ⟨i1, i2⟩ := ih (st.step S BUFSIZ seed heap w) hs
    rw [hloop, i1, i2, hc, List.length_cons]
    constructor
    · omega
    · congr 3
      omega

/-- C23. In the shingling loop with `1 <= SHINGLE_LENGTH <= BUFSIZ`, when the
fingerprint for token number `N + 1` is stored (the word counter is then
`N + 1 >= SHINGLE_LENGTH`), the write index is `N + 1 - SHINGLE_LENGTH`, the
array has just been given room for `BUFSIZ * (1 + (N + 1) / BUFSIZ)` entries of
8 bytes, and the write index is strictly below that capacity; after the write
the stored counter is the write index plus one. -/
theorem write_index_below_capacity (S BUFSIZ seed : Nat) (heap : Nat → List Byte)
    (circle0 : Nat → List Byte) (lens0 mem0 : Nat → Nat) (tokens : List (List Byte))
    (word : List Byte) (hS : 0 < S) (hB : S ≤ BUFSIZ) (hstore : S ≤ tokens.length + 1) :
    (shingle_loop S BUFSIZ seed heap (Shingler.start BUFSIZ circle0 lens0 mem0)
        tokens).stored_shingles = tokens.length + 1 - S
      ∧ ((shingle_loop S BUFSIZ seed heap (Shingler.start BUFSIZ circle0 lens0 mem0)
        tokens).step S BUFSIZ seed heap word).stored_shingles = tokens.length + 1 - S + 1
      ∧ ((shingle_loop S BUFSIZ seed heap (Shingler.start BUFSIZ circle0 lens0 mem0)
        tokens).step S BUFSIZ seed heap word).shingles_sz
          = 8 * (BUFSIZ * (1 + (tokens.length + 1) / BUFSIZ))
      ∧ tokens.length + 1 - S < BUFSIZ * (1 + (tokens.length + 1) / BUFSIZ) := by
  obtain ⟨g1, g2, g3, _, _⟩ := shingle_loop_general S BUFSIZ seed heap tokens
    (Shingler.start BUFSIZ circle0 lens0 mem0)
  obtain ⟨k1, k2, k3, _, _⟩ := shingle_loop_general S BUFSIZ seed heap (tokens ++ [word])
    (Shingler.start BUFSIZ circle0 lens0 mem0)
  obtain ⟨s1, s2⟩ := shingle_loop_shingles_sz S BUFSIZ seed heap hB (tokens ++ [word])
    (Shingler.start BUFSIZ circle0 lens0 mem0) (by simp [Shingler.start])
  have happ : shingle_loop S BUFSIZ seed heap (Shingler.start BUFSIZ circle0 lens0 mem0)
      (tokens ++ [word])
      = (shingle_loop S BUFSIZ seed heap (Shingler.start BUFSIZ circle0 lens0 mem0)
          tokens).step S BUFSIZ seed heap word := by
    simp [shingle_loop, List.foldl_append]
  have hc : (Shingler.start BUFSIZ circle0 lens0 mem0).shingles_count = 0 := rfl
  have hs : (Shingler.start BUFSIZ circle0 lens0 mem0).stored_shingles = 0 := rfl
  rw [hc] at g3 k3 s2
  rw [hs] at g2 k2
  rw [happ] at k2 s2
  rw [List.length_append, List.length_singleton] at k3 s2
  have hlt : tokens.length + 1 < BUFSIZ * ((tokens.length + 1) / BUFSIZ + 1) :=
    Nat.lt_mul_div_succ _ (by omega)
  refine ⟨by omega, by omega, ?_, ?_⟩
  · rw [s2, Nat.zero_add]
    ring
  · rw [Nat.add_comm 1]
    omega

theorem write_index_below_capacity_witness :
    (shingle_loop SHINGLE_LENGTH 4 5 (fun _ => []) (Shingler.start 4 (fun _ => [])
        (fun _ => 0) (fun _ => 0)) [bytes "a", bytes "b", bytes "c"]).stored_shingles
        = [bytes "a", bytes "b", bytes "c"].length + 1 - SHINGLE_LENGTH
      ∧ [bytes "a", bytes "b", bytes "c"].length + 1 - SHINGLE_LENGTH
        < 4 * (1 + ([bytes "a", bytes "b", bytes "c"].length + 1) / 4) :=
  ⟨(write_index_below_capacity SHINGLE_LENGTH 4 5 (fun _ => []) (fun _ => []) (fun _ => 0)
      (fun _ => 0) [bytes "a", bytes "b", bytes "c"] (bytes "d")
      (by decide) (by decide) (by decide)).1,
    (write_index_below_capacity SHINGLE_LENGTH 4 5 (fun _ => []) (fun _ => []) (fun _ => 0)
      (fun _ => 0) [bytes "a", bytes "b", bytes "c"] (bytes "d")
      (by decide) (by decide) (by decide)).2.2.2⟩

/-! ## `MurmurHash64A` on keys of at most eight bytes -/

theorem MurmurHash64A_eq_final (key : List Byte) (len seed : Nat) :
    MurmurHash64A key len seed
      = murmur_final 0xc6a4a7935bd1e995 47
          (murmur_tail key 0xc6a4a7935bd1e995 len (8 * (len / 8))
            (murmur_blocks key 0xc6a4a7935bd1e995 47 (len / 8) 0
              (seed ^^^ ((len * 0xc6a4a7935bd1e995) % U64)))) := rfl

theorem mul_m_injective (a b : Nat) (ha : a < U64) (hb : b < U64)
    (h : (a * 0xc6a4a7935bd1e995) % U64 = (b * 0xc6a4a7935bd1e995) % U64) : a = b := by
  have hinv : ∀ x : Nat, x < U64 →
      ((x * 0xc6a4a7935bd1e995) % U64 * 0x5f7a0ea7e59b19bd) % U64 = x := by
    intro x hx
    rw [Nat.mod_mul_mod, Nat.mul_assoc, Nat.mul_mod,
      show (0xc6a4a7935bd1e995 * 0x5f7a0ea7e59b19bd) % U64 = 1 by decide, Nat.mul_one,
      Nat.mod_mod, Nat.mod_eq_of_lt hx]
  rw [← hinv a ha, ← hinv b hb, h]

theorem xorshift_injective (a b : Nat) (ha : a < U64) (hb : b < U64)
    (h : a ^^^ (a >>> 47) = b ^^^ (b >>> 47)) : a = b := by
  have hinv : ∀ x : Nat, x < U64 → (x ^^^ (x >>> 47)) ^^^ ((x ^^^ (x >>> 47)) >>> 47) = x := by
    intro x hx
    have h94 : x >>> 47 >>> 47 = 0 := by
      rw [← Nat.shiftRight_add, Nat.shiftRight_eq_div_pow]
      exact Nat.div_eq_of_lt (lt_trans hx (by norm_num [U64]))
    have hd : (x ^^^ (x >>> 47)) >>> 47 = (x >>> 47) ^^^ (x >>> 47 >>> 47) := by
      apply Nat.eq_of_testBit_eq
      intro i
      simp only [Nat.testBit_shiftRight, Nat.testBit_xor]
    rw [hd, h94, Nat.xor_zero, Nat.xor_assoc, Nat.xor_self, Nat.xor_zero]
  rw [← hinv a ha, ← hinv b hb, h]

theorem murmur_final_injective (a b : Nat) (ha : a < U64) (hb : b < U64)
    (h : murmur_final 0xc6a4a7935bd1e995 47 a = murmur_final 0xc6a4a7935bd1e995 47 b) :
    a = b := by
  have hW : (0 : Nat) < U64 := by norm_num [U64]
  simp only [murmur_final] at h
  have h1 := xorshift_injective _ _ (Nat.mod_lt _ hW) (Nat.mod_lt _ hW) h
  have h2 := mul_m_injective _ _ (xor_shift_lt a 47 ha) (xor_shift_lt b 47 hb) h1
  exact xorshift_injective a b ha hb h2

theorem pow_mul_add_eq_xor (i a x : Nat) (hx : x < 2 ^ i) : 2 ^ i * a + x = (2 ^ i * a) ^^^ x := by
  apply Nat.eq_of_testBit_eq
  intro j
  rw [Nat.testBit_mul_pow_two_add a hx j, Nat.testBit_xor, Nat.testBit_mul_pow_two]
  by_cases hj : j < i
  · simp [hj, Nat.not_le_of_lt hj]
  · have hxj : x.testBit j = false :=
      Nat.testBit_lt_two_pow (lt_of_lt_of_le hx (Nat.pow_le_pow_right (by norm_num) (not_lt.mp hj)))
    simp [hj, not_lt.mp hj, hxj]

theorem le_value_lt (bs : List Byte) : le_value bs < 256 ^ bs.length := by
  induction bs with
  | nil => simp [le_value]
  | cons b bs ih =>
    simp only [le_value, List.length_cons, pow_succ]
    have := b.isLt
    omega

theorem le_value_injective :
    ∀ (xs ys : List Byte), xs.length = ys.length → le_value xs = le_value ys → xs = ys := by
  intro xs
  induction xs with
  | nil =>
    intro ys hl _
    exact (List.eq_nil_of_length_eq_zero hl.symm).symm
  | cons x xs ih =>
    intro ys hl hv
    cases ys with
    | nil => simp at hl
    | cons y ys =>
      simp only [le_value] at hv
      have hx := x.isLt
      have hy := y.isLt
      have h1 : x.val = y.val := by omega
      have h2 : le_value xs = le_value ys := by omega
      rw [Fin.ext h1, ih ys (by simpa using hl) h2]

theorem spec_tail_eq_xor :
    ∀ (bs : List Byte) (pos h : Nat), h < 2 ^ 64 → pos + bs.length ≤ 8 →
      spec_tail bs pos h = h ^^^ (2 ^ (8 * pos) * le_value bs) := by
  intro bs
  induction bs with
  | nil => intro pos h _ _; simp [spec_tail, le_value]
  | cons b bs ih =>
    intro pos h hh hlen
    simp only [List.length_cons] at hlen
    have hb : b.val * 2 ^ (8 * pos) < 2 ^ (8 * pos + 8) := by
      have := b.isLt
      rw [pow_add]
      calc b.val * 2 ^ (8 * pos) < 256 * 2 ^ (8 * pos) :=
            Nat.mul_lt_mul_of_pos_right this (Nat.two_pow_pos _)
        _ = 2 ^ (8 * pos) * 2 ^ 8 := by ring
    have hb64 : b.val * 2 ^ (8 * pos) < 2 ^ 64 :=
      lt_of_lt_of_le hb (Nat.pow_le_pow_right (by norm_num) (by omega))
    rw [spec_tail, Nat.shiftLeft_eq, Nat.mod_eq_of_lt hb64,
      Nat.mod_eq_of_lt (Nat.xor_lt_two_pow hh hb64),
      ih (pos + 1) _ (Nat.xor_lt_two_pow hh hb64) (by omega), le_value, Nat.xor_assoc]
    congr 1
    have e : 2 ^ (8 * pos) * (b.val + 256 * le_value bs)
        = 2 ^ (8 * pos + 8) * le_value bs + b.val * 2 ^ (8 * pos) := by
      rw [pow_add]
      ring
    rw [e, pow_mul_add_eq_xor _ _ _ hb, Nat.xor_comm]
    congr 2

theorem murmur_inner_short (key : List Byte) (seed : Nat) (hseed : seed < 2 ^ 64)
    (hlen : key.length ≤ 7) :
    murmur_tail key 0xc6a4a7935bd1e995 key.length (8 * (key.length / 8))
        (murmur_blocks key 0xc6a4a7935bd1e995 47 (key.length / 8) 0
          (seed ^^^ ((key.length * 0xc6a4a7935bd1e995) % U64)))
      = if 0 < key.length then
          (((seed ^^^ ((key.length * 0xc6a4a7935bd1e995) % U64)) ^^^ le_value key)
            * 0xc6a4a7935bd1e995) % U64
        else seed ^^^ ((key.length * 0xc6a4a7935bd1e995) % U64) := by
  have hW : (0 : Nat) < 2 ^ 64 := by norm_num
  have h0 : seed ^^^ ((key.length * 0xc6a4a7935bd1e995) % U64) < 2 ^ 64 :=
    Nat.xor_lt_two_pow hseed (Nat.mod_lt _ hW)
  have hdiv : key.length / 8 = 0 := Nat.div_eq_of_lt (by omega)
  have hand : key.length &&& 7 = key.length := by
    rw [show (7 : Nat) = 2 ^ 3 - 1 by norm_num, Nat.and_pow_two_sub_one_eq_mod]
    exact Nat.mod_eq_of_lt (by omega)
  rw [hdiv, Nat.mul_zero, murmur_blocks,
    tail_refine key _ key.length 0 _ key h0 hand (by omega) (fun i => by rw [Nat.zero_add]),
    spec_tail_eq_xor key 0 _ h0 (by omega)]
  by_cases hpos : 0 < key.length
  · rw [if_pos hpos, if_pos hpos]
    simp
  · have hnil : key = [] := List.eq_nil_of_length_eq_zero (by omega)
    rw [if_neg hpos, if_neg hpos, hnil]
    simp [le_value]

theorem murmur_inner_eight (key : List Byte) (seed : Nat) (hlen : key.length = 8) :
    murmur_tail key 0xc6a4a7935bd1e995 key.length (8 * (key.length / 8))
        (murmur_blocks key 0xc6a4a7935bd1e995 47 (key.length / 8) 0
          (seed ^^^ ((key.length * 0xc6a4a7935bd1e995) % U64)))
      = (((seed ^^^ ((key.length * 0xc6a4a7935bd1e995) % U64))
            ^^^ ((((le_value key * 0xc6a4a7935bd1e995) % U64)
                  ^^^ (((le_value key * 0xc6a4a7935bd1e995) % U64) >>> 47))
                * 0xc6a4a7935bd1e995) % U64)
          * 0xc6a4a7935bd1e995) % U64 := by
  have hload : load_u64 key (8 * 0) = le_value key := by
    rcases key with _ | ⟨b0, _ | ⟨b1, _ | ⟨b2, _ | ⟨b3, _ | ⟨b4, _ | ⟨b5, _ | ⟨b6, _ | ⟨b7, l⟩⟩⟩⟩⟩⟩⟩⟩ <;>
      simp at hlen
    subst hlen
    simp only [load_u64, le_value, Nat.mul_zero, Nat.zero_add, List.getD_cons_zero,
      List.getD_cons_succ]
    ring
  have h87 : 8 &&& 7 = 0 := by decide
  rw [hlen]
  simp only [show (8 : Nat) / 8 = 1 by norm_num, murmur_blocks, hload]
  simp [murmur_tail, h87]

/-- C24. For every 64-bit seed and every length `L` with `0 <= L <= 8`,
`MurmurHash64A` is injective on the byte sequences of length `L`: two
sequences of that length with the same hash are equal. -/
theorem MurmurHash64A_injective (seed : Nat) (key1 key2 : List Byte) (hseed : seed < 2 ^ 64)
    (hL : key1.length ≤ 8) (hlen : key1.length = key2.length)
    (hhash : MurmurHash64A key1 key1.length seed = MurmurHash64A key2 key2.length seed) :
    key1 = key2 := by
  have hW : (0 : Nat) < 2 ^ 64 := by norm_num
  have hU : (0 : Nat) < U64 := hW
  have h1 : seed ^^^ ((key1.length * 0xc6a4a7935bd1e995) % U64) < 2 ^ 64 :=
    Nat.xor_lt_two_pow hseed (Nat.mod_lt _ hW)
  have h2 : seed ^^^ ((key2.length * 0xc6a4a7935bd1e995) % U64) < 2 ^ 64 :=
    Nat.xor_lt_two_pow hseed (Nat.mod_lt _ hW)
  rw [MurmurHash64A_eq_final, MurmurHash64A_eq_final] at hhash
  have hin := murmur_final_injective _ _
    (murmur_tail_lt key1 _ key1.length _ _ (murmur_blocks_lt key1 _ 47 _ 0 _ h1))
    (murmur_tail_lt key2 _ key2.length _ _ (murmur_blocks_lt key2 _ 47 _ 0 _ h2)) hhash
  rcases Nat.lt_or_ge key1.length 8 with hshort | hlong
  · rw [murmur_inner_short key1 seed hseed (by omega),
      murmur_inner_short key2 seed hseed (by omega), ← hlen] at hin
    by_cases hpos : 0 < key1.length
    · rw [if_pos hpos, if_pos hpos] at hin
      have hv1 : le_value key1 < 2 ^ 64 :=
        lt_of_lt_of_le (le_value_lt key1)
          (by rw [show (256 : Nat) = 2 ^ 8 by norm_num, ← pow_mul]
              exact Nat.pow_le_pow_right (by norm_num) (by omega))
      have hv2 : le_value key2 < 2 ^ 64 :=
        lt_of_lt_of_le (le_value_lt key2)
          (by rw [show (256 : Nat) = 2 ^ 8 by norm_num, ← pow_mul]
              exact Nat.pow_le_pow_right (by norm_num) (by omega))
      have hx := mul_m_injective _ _ (Nat.xor_lt_two_pow h1 hv1) (Nat.xor_lt_two_pow h1 hv2) hin
      exact le_value_injective key1 key2 hlen (Nat.xor_right_inj.mp hx)
    · have e1 : key1 = [] := List.eq_nil_of_length_eq_zero (by omega)
      have e2 : key2 = [] := List.eq_nil_of_length_eq_zero (by omega)
      rw [e1, e2]
  · have hl1 : key1.length = 8 := le_antisymm hL hlong
    have hl2 : key2.length = 8 := by omega
    rw [murmur_inner_eight key1 seed hl1, murmur_inner_eight key2 seed hl2, ← hlen] at hin
    have hv1 : le_value key1 < U64 := by
      have := le_value_lt key1
      rw [hl1] at this
      exact this
    have hv2 : le_value key2 < U64 := by
      have := le_value_lt key2
      rw [hl2] at this
      exact this
    have hx := mul_m_injective _ _
      (Nat.xor_lt_two_pow h1 (Nat.mod_lt _ hW)) (Nat.xor_lt_two_pow h1 (Nat.mod_lt _ hW)) hin
    have hk := mul_m_injective _ _
      (xor_shift_lt _ 47 (Nat.mod_lt _ hW)) (xor_shift_lt _ 47 (Nat.mod_lt _ hW))
      (Nat.xor_right_inj.mp hx)
    have hk2 := xorshift_injective _ _ (Nat.mod_lt _ hU) (Nat.mod_lt _ hU) hk
    exact le_value_injective key1 key2 hlen (mul_m_injective _ _ hv1 hv2 hk2)

theorem MurmurHash64A_injective_witness : bytes "seven11" = bytes "seven11" :=
  MurmurHash64A_injective 12345 (bytes "seven11") (bytes "seven11") (by norm_num)
    (by decide) (by decide) rfl

/-! ## Facts about `merge_sort` -/

end PlagiarismDatabase
